import Mathlib

/-
Verification of the calendar-sync reconciliation engine.

The repository synchronises an ICS calendar feed into a remote metaobject
store.  Two program variants carry the behaviour the claims reference:

* `sync.mjs` (first document of the file): `buildHandle`, the occurrence
  expander inside `run` (recurrence expansion, exception handling, the
  start-instant window filter), and the mutation loop with its per-item
  `try/catch` around `upsertMetaobject` + `setActive`.
* the `sync-core.mjs` variant embedded in `sync.mjs` (lines 213-353,
  exported `runSync`): lists the first 250 existing records, maps feed
  events to occurrences, updates records whose handle exists, creates the
  rest, then deletes listed records whose handle is no longer desired;
  every store `userErrors` response is thrown, aborting the run.

JavaScript strings are modelled as `List Char`, instants as `Int`
(milliseconds since the Unix epoch), and the remote store as an explicit
record list threaded through the loops.  Store failure semantics follow
the store contract: create rejects a duplicate handle, update and delete
reject an unknown id, and the models surface these as an `ok : Bool`
result (the code throws on any `userErrors`).
-/

/-! ### Identity assigner: `buildHandle` from `sync.mjs` lines 89-96

`buildHandle(uid, start)` computes
`` `${clean(uid)}-${Math.floor(new Date(start).getTime()/1000)}` ``
lower-cased, with every run of characters outside `[a-z0-9-]` replaced by
a single hyphen, hyphen runs collapsed, truncated to 60 characters; if the
result is the empty string it falls back to `` `e-${Date.now()}` ``.
-/

/-- Characters kept by the regex replace `[^a-z0-9\-]+` → `-`. -/
def isKeepChar (c : Char) : Bool :=
  (decide ('a' ≤ c) && decide (c ≤ 'z')) ||
  (decide ('0' ≤ c) && decide (c ≤ '9')) ||
  (c == '-')

/-- One pass of `replace(/[^a-z0-9\-]+/g, '-')`: the flag records whether
the previous character belonged to a run that was already replaced. -/
def replaceAux : Bool → List Char → List Char
  | _, [] => []
  | prevBad, c :: rest =>
    if isKeepChar c then c :: replaceAux false rest
    else if prevBad then replaceAux true rest
    else '-' :: replaceAux true rest

/-- `replace(/[^a-z0-9\-]+/g, '-')` on `sync.mjs` line 92. -/
def replaceBad (l : List Char) : List Char := replaceAux false l

/-- One pass of the second replace (every hyphen run becomes a single
hyphen): the flag records whether the previous character was a hyphen. -/
def collapseAux : Bool → List Char → List Char
  | _, [] => []
  | prevH, c :: rest =>
    if c == '-' then
      if prevH then collapseAux true rest else '-' :: collapseAux true rest
    else c :: collapseAux false rest

/-- The second replace of `sync.mjs` line 93: collapse hyphen runs. -/
def collapseHyphens (l : List Char) : List Char := collapseAux false l

/-- JavaScript `String.prototype.trim`, used by `clean` (`sync.mjs` line 85). -/
def jsTrim (l : List Char) : List Char :=
  ((l.dropWhile Char.isWhitespace).reverse.dropWhile Char.isWhitespace).reverse

/-- Little-endian decimal digit characters of `n`, with explicit fuel so
that the definition is structural and kernel-reducible. -/
def natCharsAux : Nat → Nat → List Char
  | 0, _ => []
  | _ + 1, 0 => []
  | fuel + 1, n + 1 =>
    Nat.digitChar ((n + 1) % 10) :: natCharsAux fuel ((n + 1) / 10)

/-- Decimal rendering of a natural number, as JavaScript template strings
produce it (`"0"` for zero, most significant digit first). -/
def natChars (n : Nat) : List Char :=
  if n = 0 then ['0'] else (natCharsAux n n).reverse

/-- Decimal rendering of an integer (JavaScript `${i}`). -/
def intChars (i : Int) : List Char :=
  if i < 0 then '-' :: natChars i.natAbs else natChars i.toNat

/-- `Math.floor(new Date(start).getTime() / 1000)`: Unix seconds of a
millisecond instant, floored (`sync.mjs` line 90). -/
def jsSeconds (startMs : Int) : Int := Int.fdiv startMs 1000

/-- The normalized string of `buildHandle` before the `slice(0, 60)`
truncation: trim, append the hyphen and Unix-seconds suffix, lower-case,
replace non-kept runs, collapse hyphen runs (`sync.mjs` lines 90-93). -/
def normFull (uid : List Char) (startMs : Int) : List Char :=
  collapseHyphens (replaceBad
    (List.map Char.toLower (jsTrim uid ++ '-' :: intChars (jsSeconds startMs))))

/-- The `base` local of `buildHandle`: the normalized string truncated by
`slice(0, 60)` (`sync.mjs` line 94). -/
def buildHandleBase (uid : List Char) (startMs : Int) : List Char :=
  (normFull uid startMs).take 60

/-- `buildHandle` from `sync.mjs` lines 89-96.  The extra `nowMs` argument
feeds the `Date.now()` read in the fallback branch
`` base || `e-${Date.now()}` ``, making the impure escape hatch explicit. -/
def buildHandle (uid : List Char) (startMs nowMs : Int) : List Char :=
  if buildHandleBase uid startMs = [] then 'e' :: '-' :: intChars nowMs
  else buildHandleBase uid startMs

/-- The suffix of a string after its last hyphen (everything truncation
would have to preserve for the claimed uniqueness argument). -/
def afterLastHyphen (l : List Char) : List Char :=
  (l.reverse.takeWhile (fun c => c != '-')).reverse

/-! ### Occurrence expander: `sync.mjs` `run`, lines 156-182

Components are iterated, non-`VEVENT` and cancelled entries skipped.  A
recurring component enumerates `rrule.between(now, until, true)` (modelled
by filtering the rule's instant list to `now ≤ dt ≤ until`), skips
instants listed in `exdate`, and synthesizes an occurrence per remaining
instant with `end = dur ? start + dur : null`.  A non-recurring component
with a start is pushed unchanged.  The result is filtered to
`start >= now && start <= until` and sorted ascending by start. -/

/-- A parsed calendar component (`VEVENT`) as `run` consumes it.  The
recurrence rule is abstracted as the full list of its instants;
`rrule.between(now, until, true)` is its inclusive window filter. -/
structure VComp where
  vevent : Bool
  cancelled : Bool
  start : Option Int
  endTime : Option Int
  rrule : Option (List Int)
  exdate : List Int
  duration : Option Int
deriving DecidableEq

/-- A concrete occurrence: start instant and nullable end instant. -/
structure Occurrence where
  start : Int
  endTime : Option Int
deriving DecidableEq

/-- `ev.end ? (ev.end - ev.start) : 0` of `sync.mjs` line 171.  A `Date`
end is truthy whenever present; a missing start makes the subtraction
`NaN`, which is falsy downstream exactly like `0`. -/
def jsFallbackDur (c : VComp) : Int :=
  match c.endTime, c.start with
  | some e, some s => e - s
  | _, _ => 0

/-- `ev.duration ? ev.duration : (ev.end ? (ev.end - ev.start) : 0)`
(`sync.mjs` line 171): a numeric duration of `0` is falsy in JavaScript
and falls through to the end-minus-start fallback. -/
def jsDur (c : VComp) : Int :=
  match c.duration with
  | some d => if d = 0 then jsFallbackDur c else d
  | none => jsFallbackDur c

/-- `dur ? new Date(+start + dur) : null` (`sync.mjs` line 173): the
synthesized end of a recurrence instance, `null` when the computed
duration is zero. -/
def recurEnd (c : VComp) (dt : Int) : Option Int :=
  if jsDur c = 0 then none else some (dt + jsDur c)

/-- The occurrences one component contributes (`sync.mjs` lines 161-179). -/
def expandComp (now untilT : Int) (c : VComp) : List Occurrence :=
  if !c.vevent then []
  else if c.cancelled then []
  else
    match c.rrule with
    | some rr =>
      ((rr.filter (fun dt => decide (now ≤ dt) && decide (dt ≤ untilT))).filter
        (fun dt => !(c.exdate.contains dt))).map (fun dt => ⟨dt, recurEnd c dt⟩)
    | none =>
      match c.start with
      | some st => [⟨st, c.endTime⟩]
      | none => []

/-- The expander of `run` (`sync.mjs` lines 159-182): expand every
component, keep occurrences with `now <= start <= until`, and sort
ascending by start (`sort((a, b) => a.start - b.start)`, a stable sort;
no theorem below depends on more than the sortedness-by-permutation of
this step). -/
def runExpand (now untilT : Int) (comps : List VComp) : List Occurrence :=
  let occurrences := comps.flatMap (expandComp now untilT)
  let future := occurrences.filter
    (fun o => decide (now ≤ o.start) && decide (o.start ≤ untilT))
  List.insertionSort (fun a b => a.start ≤ b.start) future

/-! ### Reconciliation: the `runSync` of the `sync-core.mjs` variant
(`sync.mjs` lines 281-353)

The store is a record list plus a fresh-id counter.  `runSync` snapshots
the first 250 records (`metaobjects(type:"event", first:250)`), builds
`currentMap : handle -> id` (a JS `Map`, later entries winning), then for
each desired occurrence updates the mapped record or creates a new one,
and finally deletes every snapshot record whose handle is not desired.
Store validation errors (`userErrors`) are thrown by the code and abort
the run: the models return `ok = false` at that point, keeping the store
effects applied so far.  Mutation calls are counted when issued, whether
or not the store accepts them. -/

/-- A store record: store-assigned id, sync handle, attribute values. -/
structure RemoteRecord (H F : Type) where
  id : Nat
  handle : H
  fields : F
deriving DecidableEq

/-- The remote store: current records plus the next fresh record id. -/
structure StoreState (H F : Type) where
  recs : List (RemoteRecord H F)
  nextId : Nat
deriving DecidableEq

/-- A desired occurrence as `runSync` projects it: handle plus fields. -/
structure CoreOcc (H F : Type) where
  handle : H
  fields : F
deriving DecidableEq

def handlesOf {H F : Type} (l : List (RemoteRecord H F)) : List H :=
  l.map RemoteRecord.handle

def idsOf {H F : Type} (l : List (RemoteRecord H F)) : List Nat :=
  l.map RemoteRecord.id

/-- `new Map(currentNodes.map(n => [n.handle, n.id])).get(h)`: for
duplicate handles the later entry wins. -/
def mapGet {H F : Type} [DecidableEq H] (snap : List (RemoteRecord H F)) (h : H) :
    Option Nat :=
  (snap.reverse.find? (fun r => decide (r.handle = h))).map RemoteRecord.id

/-- `metaobjectUpdate(id, fields)`: overwrite the fields of the record
with the given id. -/
def updateRec {H F : Type} (recs : List (RemoteRecord H F)) (id : Nat) (f : F) :
    List (RemoteRecord H F) :=
  recs.map (fun r => if r.id = id then { r with fields := f } else r)

/-- Whether the store knows the id (update/delete of an unknown id is a
`userErrors` response). -/
def hasId {H F : Type} (recs : List (RemoteRecord H F)) (id : Nat) : Bool :=
  recs.any (fun r => decide (r.id = id))

/-- `metaobjectDelete(id)`: drop the record with the given id. -/
def deleteRec {H F : Type} (recs : List (RemoteRecord H F)) (id : Nat) :
    List (RemoteRecord H F) :=
  recs.filter (fun r => !(decide (r.id = id)))

/-- Result of a modelled `runSync`: final store, whether the run finished
without a thrown error, and how many create / delete mutations it issued. -/
structure RunOut (H F : Type) where
  state : StoreState H F
  ok : Bool
  creates : Nat
  deletes : Nat
deriving DecidableEq

/-- The create-or-update loop of `runSync` (`sync.mjs` lines 323-342).
The membership decision uses `currentMap` built from the initial
snapshot; a create of a handle the store already holds, or an update of
an id the store no longer holds, is a `userErrors` response and aborts. -/
def applyOccs {H F : Type} [DecidableEq H] (snap : List (RemoteRecord H F)) :
    List (CoreOcc H F) → StoreState H F → StoreState H F × Bool × Nat
  | [], s => (s, true, 0)
  | ev :: rest, s =>
    match mapGet snap ev.handle with
    | some id =>
      if hasId s.recs id then
        applyOccs snap rest ⟨updateRec s.recs id ev.fields, s.nextId⟩
      else (s, false, 0)
    | none =>
      if ev.handle ∈ handlesOf s.recs then (s, false, 1)
      else
        let out := applyOccs snap rest
          ⟨s.recs ++ [⟨s.nextId, ev.handle, ev.fields⟩], s.nextId + 1⟩
        (out.1, out.2.1, out.2.2 + 1)

/-- The delete loop of `runSync` (`sync.mjs` lines 344-350). -/
def applyDels {H F : Type} : List Nat → StoreState H F → StoreState H F × Bool × Nat
  | [], s => (s, true, 0)
  | id :: rest, s =>
    if hasId s.recs id then
      let out := applyDels rest ⟨deleteRec s.recs id, s.nextId⟩
      (out.1, out.2.1, out.2.2 + 1)
    else (s, false, 1)

/-- `runSync` of the `sync-core.mjs` variant (`sync.mjs` lines 281-353):
snapshot the first 250 records, run the create-or-update loop over the
desired occurrences, then delete snapshot records whose handle is absent
from the desired handles. -/
def runSyncModel {H F : Type} [DecidableEq H] (occ : List (CoreOcc H F))
    (s : StoreState H F) : RunOut H F :=
  let snap := s.recs.take 250
  let newHandles := occ.map CoreOcc.handle
  let o1 := applyOccs snap occ s
  if o1.2.1 then
    let delIds := (snap.filter
      (fun n => !(decide (n.handle ∈ newHandles)))).map RemoteRecord.id
    let o2 := applyDels delIds o1.1
    ⟨o2.1, o2.2.1, o1.2.2, o2.2.2⟩
  else ⟨o1.1, false, o1.2.2, 0⟩

/-- The create partition of the plan implicit in `runSync`: desired
occurrences whose handle misses `currentMap` (`sync.mjs` line 332-338). -/
def plannerCreates {H F : Type} [DecidableEq H] (occ : List (CoreOcc H F))
    (current : List (RemoteRecord H F)) : List (CoreOcc H F) :=
  occ.filter (fun e => (mapGet current e.handle).isNone)

/-- The update partition: desired occurrences whose handle hits
`currentMap` (`sync.mjs` lines 332-336). -/
def plannerUpdates {H F : Type} [DecidableEq H] (occ : List (CoreOcc H F))
    (current : List (RemoteRecord H F)) : List (CoreOcc H F) :=
  occ.filter (fun e => (mapGet current e.handle).isSome)

/-- The delete partition: listed records whose handle is not desired
(`sync.mjs` line 344). -/
def plannerDeletes {H F : Type} [DecidableEq H] (occ : List (CoreOcc H F))
    (current : List (RemoteRecord H F)) : List (RemoteRecord H F) :=
  current.filter (fun n => !(decide (n.handle ∈ occ.map CoreOcc.handle)))

/-! ### Mutation executor: `sync.mjs` `run`, lines 187-204

For each future occurrence the loop computes the handle and fields, then
inside `try { id = upsertMetaobject(...); setActive(id); count++ }
catch { log }` applies the write followed immediately by the activation.
`upsertMetaobject` is abstracted as a single keyed write that either
succeeds (returning the record id, creating an unpublished record when
the handle is new, overwriting fields otherwise) or throws; `setActive`
either publishes the record or throws.  The failure oracles `uf`/`af`
say whether the store rejects item `i`'s write or activation. -/

/-- A store record on the executor side: Shopify's default status for a
written-but-not-activated metaobject is unpublished. -/
structure ExecRecord (F : Type) where
  id : Nat
  handle : List Char
  fields : F
  published : Bool
deriving DecidableEq

/-- The executor-side store: records plus the next fresh id. -/
structure ExecState (F : Type) where
  recs : List (ExecRecord F)
  nextId : Nat
deriving DecidableEq

/-- One plan item as the executor consumes it. -/
structure ExecItem (F : Type) where
  handle : List Char
  fields : F
deriving DecidableEq

/-- Observable store calls of the executor, tagged by item index. -/
inductive ExecEv where
  | upsertFail (i : Nat)
  | upsertOk (i id : Nat)
  | activeFail (i id : Nat)
  | activeOk (i id : Nat)
deriving DecidableEq

/-- `upsertMetaobject(handle, fields)` on success: write the fields for
the handle, creating an unpublished record if the handle is new, and
return the record id (`sync.mjs` lines 112-133). -/
def doUpsert {F : Type} (st : ExecState F) (h : List Char) (f : F) :
    ExecState F × Nat :=
  match st.recs.reverse.find? (fun r => decide (r.handle = h)) with
  | some r =>
    (⟨st.recs.map (fun q => if q.id = r.id then { q with fields := f } else q),
      st.nextId⟩, r.id)
  | none => (⟨st.recs ++ [⟨st.nextId, h, f, false⟩], st.nextId + 1⟩, st.nextId)

/-- `setActive(id)` on success (`sync.mjs` lines 135-139): transition the
record to the published state. -/
def setPub {F : Type} (st : ExecState F) (id : Nat) : ExecState F :=
  ⟨st.recs.map (fun q => if q.id = id then { q with published := true } else q),
    st.nextId⟩

/-- One iteration of the executor loop (`sync.mjs` lines 187-204): the
`try` block runs the write then the activation; either throw lands in the
`catch`, which logs and moves on, leaving the effects already applied. -/
def execStep {F : Type} (uf af : Nat → Bool) (i : Nat) (it : ExecItem F)
    (st : ExecState F) : ExecState F × Bool × List ExecEv :=
  if uf i then (st, false, [ExecEv.upsertFail i])
  else
    let o := doUpsert st it.handle it.fields
    if af i then (o.1, false, [ExecEv.upsertOk i o.2, ExecEv.activeFail i o.2])
    else (setPub o.1 o.2, true, [ExecEv.upsertOk i o.2, ExecEv.activeOk i o.2])

/-- The executor loop over the remaining plan, starting at item index
`i`: final store, count of fully-applied items, and the call trace. -/
def execGo {F : Type} (uf af : Nat → Bool) :
    Nat → List (ExecItem F) → ExecState F → ExecState F × Nat × List ExecEv
  | _, [], st => (st, 0, [])
  | i, it :: rest, st =>
    let o := execStep uf af i it st
    let r := execGo uf af (i + 1) rest o.1
    (r.1, (if o.2.1 then r.2.1 + 1 else r.2.1), o.2.2 ++ r.2.2)

/-- The mutation executor of `run` (`sync.mjs` lines 185-204). -/
def execRun {F : Type} (uf af : Nat → Bool) (plan : List (ExecItem F))
    (st : ExecState F) : ExecState F × Nat × List ExecEv :=
  execGo uf af 0 plan st

/-- The item indices whose write was attempted, in trace order. -/
def attemptedOf : List ExecEv → List Nat
  | [] => []
  | ExecEv.upsertFail i :: t => i :: attemptedOf t
  | ExecEv.upsertOk i _ :: t => i :: attemptedOf t
  | ExecEv.activeFail _ _ :: t => attemptedOf t
  | ExecEv.activeOk _ _ :: t => attemptedOf t

/-- Proof invariant for the create-or-update loop of `runSync`: `orig` is
the store at the start of the run (also the listed snapshot, when it fits
in one page), `ps` the already-processed desired occurrences, `s` the
current store.  Records never lose their id or handle; processed
occurrences are present with their fields written; created records carry
handles the original store did not have. -/
structure SyncLoopInv {H F : Type} (orig : StoreState H F)
    (ps : List (CoreOcc H F)) (s : StoreState H F) : Prop where
  idsSub : ∀ i ∈ idsOf orig.recs, i ∈ idsOf s.recs
  idsNodup : (idsOf s.recs).Nodup
  idsLt : ∀ r ∈ s.recs, r.id < s.nextId
  nextLe : orig.nextId ≤ s.nextId
  handleSub : ∀ r ∈ s.recs,
    r.handle ∈ handlesOf orig.recs ∨ r.handle ∈ ps.map CoreOcc.handle
  procPresent : ∀ e ∈ ps, e.handle ∈ handlesOf s.recs
  procFields : ∀ e ∈ ps, ∀ r ∈ s.recs, r.handle = e.handle → r.fields = e.fields
  handlesNodup : (handlesOf s.recs).Nodup
  idHandle : ∀ q ∈ orig.recs, ∀ r ∈ s.recs, r.id = q.id → r.handle = q.handle
  handleId : ∀ q ∈ orig.recs, ∀ r ∈ s.recs, r.handle = q.handle → r.id = q.id
  newNotOrig : ∀ r ∈ s.recs,
    r.id ∈ idsOf orig.recs ∨ r.handle ∉ handlesOf orig.recs

/-! ### Lemmas about the handle normalization pipeline -/

theorem replaceAux_false_ne_nil (l : List Char) (h : l ≠ []) :
    replaceAux false l ≠ [] := by
  cases l with
  | nil => exact absurd rfl h
  | cons c t =>
    unfold replaceAux
    by_cases hk : isKeepChar c
    · simp [hk]
    · simp [hk]

theorem collapseAux_false_ne_nil (l : List Char) (h : l ≠ []) :
    collapseAux false l ≠ [] := by
  cases l with
  | nil => exact absurd rfl h
  | cons c t =>
    unfold collapseAux
    by_cases hk : (c == '-') = true
    · simp [hk]
    · simp [hk]

theorem take60_ne_nil (l : List Char) (h : l ≠ []) : l.take 60 ≠ [] := by
  cases l with
  | nil => exact absurd rfl h
  | cons c t => simp [List.take_succ_cons]

theorem normFull_ne_nil (uid : List Char) (t : Int) : normFull uid t ≠ [] := by
  unfold normFull replaceBad collapseHyphens
  apply collapseAux_false_ne_nil
  apply replaceAux_false_ne_nil
  simp

theorem buildHandleBase_ne_nil (uid : List Char) (t : Int) :
    buildHandleBase uid t ≠ [] := by
  unfold buildHandleBase
  exact take60_ne_nil _ (normFull_ne_nil uid t)

/-- C3: `buildHandle` is pure and deterministic.  The only impure read in
its body is the `Date.now()` of the empty-base fallback; the normalized
base always retains the hyphen separating uid and timestamp, so the
fallback is unreachable and the result is independent of the clock:
same uid and same start instant always give the same string. -/
theorem buildHandle_deterministic (uid : List Char) (startMs n1 n2 : Int) :
    buildHandle uid startMs n1 = buildHandle uid startMs n2 := by
  unfold buildHandle
  rw [if_neg (buildHandleBase_ne_nil uid startMs),
    if_neg (buildHandleBase_ne_nil uid startMs)]

theorem allKeep_replaceAux (l : List Char) (hl : ∀ c ∈ l, isKeepChar c = true) :
    ∀ b, replaceAux b l = l := by
  induction l with
  | nil => intro b; rfl
  | cons c t ih =>
    intro b
    unfold replaceAux
    rw [if_pos (hl c (List.mem_cons_self c t))]
    rw [ih (fun x hx => hl x (List.mem_cons_of_mem c hx)) false]

theorem replaceAux_append_hyphen (d : List Char)
    (hd : ∀ c ∈ d, isKeepChar c = true) :
    ∀ (a : List Char) (b : Bool),
      replaceAux b (a ++ '-' :: d) = replaceAux b a ++ '-' :: d := by
  intro a
  induction a with
  | nil =>
    intro b
    show replaceAux b ('-' :: d) = replaceAux b [] ++ '-' :: d
    unfold replaceAux
    rw [if_pos (by decide : isKeepChar '-' = true)]
    rw [allKeep_replaceAux d hd false]
    rfl
  | cons c t ih =>
    intro b
    show replaceAux b (c :: (t ++ '-' :: d)) = replaceAux b (c :: t) ++ '-' :: d
    unfold replaceAux
    by_cases hk : isKeepChar c
    · rw [if_pos hk, if_pos hk, ih false]
      rfl
    · rw [if_neg hk, if_neg hk]
      cases b
      · simp only [Bool.false_eq_true, if_false]
        rw [ih true]
        rfl
      · simp only [if_true]
        exact ih true

theorem noHyphen_collapseAux (d : List Char)
    (hd : ∀ c ∈ d, (c == '-') = false) :
    ∀ b, collapseAux b d = d := by
  induction d with
  | nil => intro b; rfl
  | cons c t ih =>
    intro b
    unfold collapseAux
    rw [hd c (List.mem_cons_self c t)]
    simp only [Bool.false_eq_true, if_false]
    rw [ih (fun x hx => hd x (List.mem_cons_of_mem c hx)) false]

theorem collapseAux_append_hyphen (d : List Char)
    (hd : ∀ c ∈ d, (c == '-') = false) :
    ∀ (a : List Char) (b : Bool),
      collapseAux b (a ++ '-' :: d) = collapseAux b (a ++ ['-']) ++ d := by
  intro a
  induction a with
  | nil =>
    intro b
    show collapseAux b ('-' :: d) = collapseAux b ['-'] ++ d
    unfold collapseAux
    cases b
    · simp only [beq_self_eq_true, if_true, Bool.false_eq_true, if_false]
      rw [noHyphen_collapseAux d hd true]
      rfl
    · simp only [beq_self_eq_true, if_true]
      rw [noHyphen_collapseAux d hd true]
      rfl
  | cons c t ih =>
    intro b
    show collapseAux b (c :: (t ++ '-' :: d)) = collapseAux b (c :: (t ++ ['-'])) ++ d
    unfold collapseAux
    by_cases hc : (c == '-') = true
    · rw [hc]
      simp only [if_true]
      cases b
      · simp only [Bool.false_eq_true, if_false]
        rw [ih true]
        rfl
      · simp only [if_true]
        exact ih true
    · rw [Bool.not_eq_true] at hc
      rw [hc]
      simp only [Bool.false_eq_true, if_false]
      rw [ih false]
      rfl

theorem collapseAux_hyphen_end :
    ∀ (a : List Char) (b : Bool),
      collapseAux b (a ++ ['-']) = [] ∨
        ∃ y, collapseAux b (a ++ ['-']) = y ++ ['-'] := by
  intro a
  induction a with
  | nil =>
    intro b
    cases b
    · right
      exact ⟨[], rfl⟩
    · left
      rfl
  | cons c t ih =>
    intro b
    show collapseAux b (c :: (t ++ ['-'])) = [] ∨
      ∃ y, collapseAux b (c :: (t ++ ['-'])) = y ++ ['-']
    unfold collapseAux
    by_cases hc : (c == '-') = true
    · rw [hc]
      simp only [if_true]
      cases b
      · simp only [Bool.false_eq_true, if_false]
        rcases ih true with h | ⟨y, hy⟩
        · right
          exact ⟨[], by rw [h]; rfl⟩
        · right
          exact ⟨'-' :: y, by rw [hy]; rfl⟩
      · simp only [if_true]
        exact ih true
    · rw [Bool.not_eq_true] at hc
      rw [hc]
      simp only [Bool.false_eq_true, if_false]
      rcases ih false with h | ⟨y, hy⟩
      · exact absurd h (collapseAux_false_ne_nil _ (by simp))
      · right
        exact ⟨c :: y, by rw [hy]; rfl⟩

theorem takeWhile_append_all (p : Char → Bool) (xs ys : List Char)
    (h : ∀ x ∈ xs, p x = true) :
    (xs ++ ys).takeWhile p = xs ++ ys.takeWhile p := by
  induction xs with
  | nil => rfl
  | cons a t ih =>
    show ((a :: t) ++ ys).takeWhile p = (a :: t) ++ ys.takeWhile p
    rw [List.cons_append, List.takeWhile_cons, h a (List.mem_cons_self a t)]
    simp only [if_true]
    rw [ih (fun x hx => h x (List.mem_cons_of_mem a hx))]
    rfl

theorem afterLastHyphen_append (y d : List Char)
    (hd : ∀ c ∈ d, (c == '-') = false) :
    afterLastHyphen ((y ++ ['-']) ++ d) = d := by
  unfold afterLastHyphen
  rw [List.reverse_append, List.reverse_append]
  have h1 : ∀ x ∈ d.reverse, (x != '-') = true := by
    intro x hx
    have := hd x (List.mem_reverse.mp hx)
    simp [bne, this]
  rw [takeWhile_append_all _ _ _ h1]
  have h2 : (['-'].reverse ++ y.reverse).takeWhile (fun c => c != '-') = [] := by
    show (('-' : Char) :: y.reverse).takeWhile (fun c => c != '-') = []
    rw [List.takeWhile_cons]
    simp
  rw [h2, List.append_nil, List.reverse_reverse]

theorem digitChar_keep : ∀ d < 10, isKeepChar (Nat.digitChar d) = true ∧
    (Nat.digitChar d == '-') = false ∧
    Char.toLower (Nat.digitChar d) = Nat.digitChar d := by decide

theorem natCharsAux_mem (fuel : Nat) :
    ∀ (n : Nat), ∀ c ∈ natCharsAux fuel n, ∃ d, d < 10 ∧ c = Nat.digitChar d := by
  induction fuel with
  | zero => intro n c hc; exact absurd hc (by simp [natCharsAux])
  | succ f ih =>
    intro n c hc
    cases n with
    | zero => exact absurd hc (by simp [natCharsAux])
    | succ m =>
      rw [natCharsAux] at hc
      rcases List.mem_cons.mp hc with h | h
      · exact ⟨(m + 1) % 10, Nat.mod_lt _ (by norm_num), h⟩
      · exact ih _ c h

theorem natChars_mem (n : Nat) :
    ∀ c ∈ natChars n, ∃ d, d < 10 ∧ c = Nat.digitChar d := by
  intro c hc
  unfold natChars at hc
  by_cases h : n = 0
  · rw [if_pos h] at hc
    simp only [List.mem_singleton] at hc
    exact ⟨0, by norm_num, hc⟩
  · rw [if_neg h] at hc
    exact natCharsAux_mem n n c (List.mem_reverse.mp hc)

theorem natChars_keep (n : Nat) : ∀ c ∈ natChars n, isKeepChar c = true := by
  intro c hc
  obtain ⟨d, hd, rfl⟩ := natChars_mem n c hc
  exact (digitChar_keep d hd).1

theorem natChars_noHyphen (n : Nat) : ∀ c ∈ natChars n, (c == '-') = false := by
  intro c hc
  obtain ⟨d, hd, rfl⟩ := natChars_mem n c hc
  exact (digitChar_keep d hd).2.1

theorem natChars_lower_fix (n : Nat) :
    (natChars n).map Char.toLower = natChars n := by
  have : ∀ c ∈ natChars n, Char.toLower c = c := by
    intro c hc
    obtain ⟨d, hd, rfl⟩ := natChars_mem n c hc
    exact (digitChar_keep d hd).2.2
  calc (natChars n).map Char.toLower = (natChars n).map id :=
        List.map_congr_left this
    _ = natChars n := List.map_id _

theorem natCharsAux_eq_digits (fuel : Nat) :
    ∀ (n : Nat), n ≤ fuel →
      natCharsAux fuel n = (Nat.digits 10 n).map Nat.digitChar := by
  induction fuel with
  | zero =>
    intro n hn
    have : n = 0 := Nat.le_zero.mp hn
    subst this
    simp [natCharsAux]
  | succ f ih =>
    intro n hn
    cases n with
    | zero => simp [natCharsAux]
    | succ m =>
      rw [natCharsAux]
      rw [Nat.digits_def' (by norm_num : (1 : ℕ) < 10) (Nat.succ_pos m)]
      rw [List.map_cons]
      congr 1
      have hlt : (m + 1) / 10 < m + 1 := Nat.div_lt_self (Nat.succ_pos m) (by norm_num)
      exact ih _ (by omega)

theorem map_digitChar_inj :
    ∀ (l1 l2 : List Nat), (∀ x ∈ l1, x < 10) → (∀ x ∈ l2, x < 10) →
      l1.map Nat.digitChar = l2.map Nat.digitChar → l1 = l2 := by
  intro l1
  induction l1 with
  | nil =>
    intro l2 _ _ he
    cases l2 with
    | nil => rfl
    | cons b t => exact absurd he (by simp)
  | cons a t ih =>
    intro l2 h1 h2 he
    cases l2 with
    | nil => exact absurd he (by simp)
    | cons b t2 =>
      simp only [List.map_cons, List.cons.injEq] at he
      have hinj : ∀ x < 10, ∀ y < 10, Nat.digitChar x = Nat.digitChar y → x = y := by
        decide
      have hab : a = b :=
        hinj a (h1 a (List.mem_cons_self a t)) b (h2 b (List.mem_cons_self b t2)) he.1
      have : t = t2 := ih t2 (fun x hx => h1 x (List.mem_cons_of_mem a hx))
        (fun x hx => h2 x (List.mem_cons_of_mem b hx)) he.2
      rw [hab, this]

theorem natChars_inj (m n : Nat) (h : natChars m = natChars n) : m = n := by
  unfold natChars at h
  by_cases hm : m = 0 <;> by_cases hn : n = 0
  · rw [hm, hn]
  · rw [if_pos hm, if_neg hn] at h
    rw [natCharsAux_eq_digits n n (le_refl n)] at h
    have h' : (Nat.digits 10 n).map Nat.digitChar = ['0'] := by
      have := congrArg List.reverse h
      simpa using this.symm
    have hd : Nat.digits 10 n = [0] := by
      cases hdig : Nat.digits 10 n with
      | nil => rw [hdig] at h'; exact absurd h' (by simp)
      | cons d tl =>
        rw [hdig] at h'
        cases tl with
        | nil =>
          simp only [List.map_cons, List.map_nil, List.cons.injEq] at h'
          have hlt : d < 10 := Nat.digits_lt_base (by norm_num) (by rw [hdig]; exact List.mem_cons_self d [])
          have : d = 0 := by
            have : ∀ x < 10, Nat.digitChar x = '0' → x = 0 := by decide
            exact this d hlt h'.1
          rw [this]
        | cons d2 tl2 => exact absurd h' (by simp)
    have : n = Nat.ofDigits 10 (Nat.digits 10 n) := (Nat.ofDigits_digits 10 n).symm
    rw [hd] at this
    simp [Nat.ofDigits] at this
    exact absurd this hn
  · rw [if_neg hm, if_pos hn] at h
    rw [natCharsAux_eq_digits m m (le_refl m)] at h
    have h' : (Nat.digits 10 m).map Nat.digitChar = ['0'] := by
      have := congrArg List.reverse h
      simpa using this
    have hd : Nat.digits 10 m = [0] := by
      cases hdig : Nat.digits 10 m with
      | nil => rw [hdig] at h'; exact absurd h' (by simp)
      | cons d tl =>
        rw [hdig] at h'
        cases tl with
        | nil =>
          simp only [List.map_cons, List.map_nil, List.cons.injEq] at h'
          have hlt : d < 10 := Nat.digits_lt_base (by norm_num) (by rw [hdig]; exact List.mem_cons_self d [])
          have : d = 0 := by
            have : ∀ x < 10, Nat.digitChar x = '0' → x = 0 := by decide
            exact this d hlt h'.1
          rw [this]
        | cons d2 tl2 => exact absurd h' (by simp)
    have : m = Nat.ofDigits 10 (Nat.digits 10 m) := (Nat.ofDigits_digits 10 m).symm
    rw [hd] at this
    simp [Nat.ofDigits] at this
    exact absurd this hm
  · rw [if_neg hm, if_neg hn] at h
    rw [natCharsAux_eq_digits m m (le_refl m), natCharsAux_eq_digits n n (le_refl n)] at h
    have h' := List.reverse_injective h
    have hdig : Nat.digits 10 m = Nat.digits 10 n :=
      map_digitChar_inj _ _
        (fun x hx => Nat.digits_lt_base (by norm_num) hx)
        (fun x hx => Nat.digits_lt_base (by norm_num) hx) h'
    calc m = Nat.ofDigits 10 (Nat.digits 10 m) := (Nat.ofDigits_digits 10 m).symm
      _ = Nat.ofDigits 10 (Nat.digits 10 n) := by rw [hdig]
      _ = n := Nat.ofDigits_digits 10 n

theorem afterLastHyphen_normFull (uid : List Char) (t : Int)
    (h : 0 ≤ jsSeconds t) :
    afterLastHyphen (normFull uid t) = natChars (jsSeconds t).toNat := by
  unfold normFull
  rw [intChars, if_neg (not_lt.mpr h)]
  rw [List.map_append, List.map_cons]
  rw [(by decide : Char.toLower '-' = '-')]
  rw [natChars_lower_fix]
  unfold replaceBad
  rw [replaceAux_append_hyphen _ (natChars_keep _)]
  unfold collapseHyphens
  rw [collapseAux_append_hyphen _ (natChars_noHyphen _)]
  rcases collapseAux_hyphen_end (replaceAux false ((jsTrim uid).map Char.toLower)) false with
    hnil | ⟨y, hy⟩
  · exact absurd hnil (collapseAux_false_ne_nil _ (by simp))
  · rw [hy]
    exact afterLastHyphen_append y _ (natChars_noHyphen _)

/-- C4 counterexample: with a 60-character uid the `slice(0, 60)` cuts off
the whole Unix-seconds suffix, so two occurrences with distinct start
seconds receive the same handle — truncation does not spare the
timestamp suffix, and uniqueness is lost. -/
theorem buildHandle_truncation_counterexample :
    ¬ (∀ (uid : List Char) (t1 t2 nw1 nw2 : Int),
        jsSeconds t1 ≠ jsSeconds t2 →
        buildHandle uid t1 nw1 ≠ buildHandle uid t2 nw2) := by
  intro h
  exact h (List.replicate 60 'a') 0 1000 0 0 (by decide) (by decide)

/-- C4 amended: the `slice(0, 60)` truncates the final concatenated string
including the timestamp suffix, so uniqueness under distinct (nonnegative)
start seconds is only guaranteed when the normalized string does not
exceed 60 characters — in that case no characters are cut and the
untouched Unix-seconds suffix keeps the handles distinct. -/
theorem buildHandle_unique_of_short (uid : List Char) (t1 t2 nw1 nw2 : Int)
    (h1 : 0 ≤ jsSeconds t1) (h2 : 0 ≤ jsSeconds t2)
    (hne : jsSeconds t1 ≠ jsSeconds t2)
    (hl1 : (normFull uid t1).length ≤ 60)
    (hl2 : (normFull uid t2).length ≤ 60) :
    buildHandle uid t1 nw1 ≠ buildHandle uid t2 nw2 := by
  intro he
  rw [buildHandle, if_neg (buildHandleBase_ne_nil uid t1),
    buildHandle, if_neg (buildHandleBase_ne_nil uid t2)] at he
  rw [buildHandleBase, buildHandleBase,
    List.take_of_length_le hl1, List.take_of_length_le hl2] at he
  have hsuf : natChars (jsSeconds t1).toNat = natChars (jsSeconds t2).toNat := by
    rw [← afterLastHyphen_normFull uid t1 h1, ← afterLastHyphen_normFull uid t2 h2, he]
  have := natChars_inj _ _ hsuf
  omega

/-- C4 amended witness at a concrete short uid and two distinct seconds. -/
theorem buildHandle_unique_of_short_witness :
    (0 ≤ jsSeconds 1000 ∧ 0 ≤ jsSeconds 2000 ∧ jsSeconds 1000 ≠ jsSeconds 2000 ∧
      (normFull ['a', 'b'] 1000).length ≤ 60 ∧ (normFull ['a', 'b'] 2000).length ≤ 60) ∧
    buildHandle ['a', 'b'] 1000 7 ≠ buildHandle ['a', 'b'] 2000 9 :=
  ⟨by decide, buildHandle_unique_of_short ['a', 'b'] 1000 2000 7 9
    (by decide) (by decide) (by decide) (by decide) (by decide)⟩

/-! ### Expander claims C5, C6, C7 -/

/-- C5 counterexample: the expander's only filter is
`ev.start >= now && ev.start <= until`; a non-recurring event that is
already in progress (start before `now`, end after `now`) is dropped,
contradicting the claimed in-progress retention. -/
theorem expander_in_progress_counterexample :
    ¬ (∀ (now untilT : Int) (c : VComp) (st e : Int),
        c.vevent = true → c.cancelled = false → c.rrule = none →
        c.start = some st → c.endTime = some e →
        st ≤ untilT → now ≤ e →
        (⟨st, some e⟩ : Occurrence) ∈ runExpand now untilT [c]) := by
  intro h
  have := h 1000 86400000 ⟨true, false, some 0, some 2000, none, [], none⟩ 0 2000
    rfl rfl rfl rfl rfl (by decide) (by decide)
  exact absurd this (by decide)

/-- C5 amended: a non-recurring, non-cancelled component with a start is
included exactly when `now ≤ start ≤ until`; its end instant plays no
role in the decision, so an event in progress (start before `now`) is
excluded even when its end is at or after `now`, and a purely past event
is excluded because its start is before `now`. -/
theorem expander_nonrecurring_window (now untilT st : Int) (e : Option Int)
    (exd : List Int) (dur : Option Int) :
    runExpand now untilT [⟨true, false, some st, e, none, exd, dur⟩] =
      if now ≤ st ∧ st ≤ untilT then [⟨st, e⟩] else [] := by
  by_cases h1 : now ≤ st <;> by_cases h2 : st ≤ untilT <;>
    simp [runExpand, expandComp, h1, h2, List.insertionSort]

/-- C6 counterexample: the expander performs no end-before-start
validation; a component with `end < start` inside the window flows
through to the planner as an occurrence with `end < start`. -/
theorem expander_end_before_start_counterexample :
    ¬ (∀ (now untilT : Int) (comps : List VComp) (o : Occurrence) (e : Int),
        o ∈ runExpand now untilT comps → o.endTime = some e → o.start ≤ e) := by
  intro h
  have := h 0 86400000 [⟨true, false, some 1000, some 500, none, [], none⟩]
    ⟨1000, some 500⟩ 500 (by decide) rfl
  exact absurd this (by decide)

/-- C6 amended: the expander rejects nothing on end-before-start grounds;
a non-recurring component whose end instant precedes its start instant is
passed through unchanged whenever its start is in the window (every
occurrence does carry a start instant, by construction). -/
theorem expander_passes_end_before_start (now untilT st e : Int)
    (exd : List Int) (dur : Option Int)
    (h1 : now ≤ st) (h2 : st ≤ untilT) :
    runExpand now untilT [⟨true, false, some st, some e, none, exd, dur⟩] =
      [⟨st, some e⟩] := by
  simp [runExpand, expandComp, h1, h2, List.insertionSort]

/-- C6 amended witness: an in-window component with end 500 before start
1000 yields exactly that malformed occurrence. -/
theorem expander_passes_end_before_start_witness :
    ((0 : Int) ≤ 1000 ∧ (1000 : Int) ≤ 86400000) ∧
    runExpand 0 86400000 [⟨true, false, some 1000, some 500, none, [], none⟩] =
      [⟨1000, some 500⟩] :=
  ⟨by decide, expander_passes_end_before_start 0 86400000 1000 500 [] none
    (by decide) (by decide)⟩

/-- C7 counterexample: a recurring component whose source end equals its
start (zero computed duration) synthesizes occurrences with a null end,
while the claimed formula `end = instant + duration` (null only when the
source had no end or duration) demands the non-null `instant + 0`. -/
theorem recurrence_zero_duration_counterexample :
    ¬ (∀ (now untilT : Int) (c : VComp) (rr : List Int) (dt : Int),
        c.vevent = true → c.cancelled = false → c.rrule = some rr →
        dt ∈ rr → now ≤ dt → dt ≤ untilT → dt ∉ c.exdate →
        (⟨dt, match c.duration, c.endTime, c.start with
              | some d, _, _ => some (dt + d)
              | none, some e, some s => some (dt + (e - s))
              | _, _, _ => none⟩ : Occurrence) ∈ runExpand now untilT [c]) := by
  intro h
  have := h 0 86400000 ⟨true, false, some 0, some 0, some [5000], [], none⟩
    [5000] 5000 rfl rfl rfl (by decide) (by decide) (by decide) (by decide)
  exact absurd this (by decide)

/-- C7 amended: a recurring, non-cancelled component yields exactly one
occurrence per recurrence instant in the inclusive window `[now, until]`
that is absent from its exception set, with start the instant and end
`instant + dur` where `dur` is the explicit nonzero duration, else
end-minus-start, and the end is null whenever that computed duration is
zero (in particular when the source had no end, but also when the end
equals the start); a component marked cancelled yields no occurrences. -/
theorem recurrence_expansion_characterization :
    (∀ (now untilT st : Int) (e : Option Int) (rr exd : List Int)
        (dur : Option Int),
      List.Perm
        (runExpand now untilT [⟨true, false, some st, e, some rr, exd, dur⟩])
        (((rr.filter (fun dt => decide (now ≤ dt) && decide (dt ≤ untilT))).filter
            (fun dt => !(exd.contains dt))).map
          (fun dt => ⟨dt, recurEnd ⟨true, false, some st, e, some rr, exd, dur⟩ dt⟩))) ∧
    (∀ (now untilT : Int) (c : VComp), c.cancelled = true →
      runExpand now untilT [c] = []) := by
  constructor
  · intro now untilT st e rr exd dur
    unfold runExpand
    simp only [List.flatMap_cons, List.flatMap_nil, List.append_nil]
    have hMval : expandComp now untilT ⟨true, false, some st, e, some rr, exd, dur⟩
        = ((rr.filter (fun dt => decide (now ≤ dt) && decide (dt ≤ untilT))).filter
            (fun dt => !(exd.contains dt))).map
          (fun dt => ⟨dt, recurEnd ⟨true, false, some st, e, some rr, exd, dur⟩ dt⟩) := by
      simp [expandComp]
    rw [hMval]
    have hfil : (((rr.filter (fun dt => decide (now ≤ dt) && decide (dt ≤ untilT))).filter
            (fun dt => !(exd.contains dt))).map
          (fun dt => (⟨dt, recurEnd ⟨true, false, some st, e, some rr, exd, dur⟩ dt⟩ : Occurrence))).filter
          (fun o => decide (now ≤ o.start) && decide (o.start ≤ untilT))
        = ((rr.filter (fun dt => decide (now ≤ dt) && decide (dt ≤ untilT))).filter
            (fun dt => !(exd.contains dt))).map
          (fun dt => ⟨dt, recurEnd ⟨true, false, some st, e, some rr, exd, dur⟩ dt⟩) := by
      rw [List.filter_eq_self]
      intro o ho
      obtain ⟨dt, hdt, rfl⟩ := List.mem_map.mp ho
      have hw := (List.mem_filter.mp (List.mem_filter.mp hdt).1).2
      exact hw
    rw [hfil]
    exact List.perm_insertionSort _ _
  · intro now untilT c hc
    have hnil : expandComp now untilT c = [] := by
      unfold expandComp
      cases hv : c.vevent
      · simp
      · simp [hc]
    simp [runExpand, hnil, List.insertionSort]

/-- C7 witness: a daily rule with four instants over the inclusive
window and one excluded instant yields three occurrences (N-1), and a
cancelled component yields none. -/
theorem recurrence_expansion_witness :
    (runExpand 0 259200000 [⟨true, false, some 0, none,
        some [0, 86400000, 172800000, 259200000], [86400000], none⟩]).length = 3 ∧
    ((⟨true, true, some 0, none, none, [], none⟩ : VComp).cancelled = true ∧
      runExpand 0 259200000 [⟨true, true, some 0, none, none, [], none⟩] = []) := by
  constructor
  · have h := recurrence_expansion_characterization.1 0 259200000 0 none
      [0, 86400000, 172800000, 259200000] [86400000] none
    rw [h.length_eq]
    decide
  · exact ⟨rfl, recurrence_expansion_characterization.2 0 259200000 _ rfl⟩

/-! ### Reconciliation planner lemmas and claim C1 -/

theorem mapGet_eq_none_iff {H F : Type} [DecidableEq H]
    (snap : List (RemoteRecord H F)) (h : H) :
    mapGet snap h = none ↔ h ∉ handlesOf snap := by
  unfold mapGet
  rw [Option.map_eq_none']
  constructor
  · intro hn hmem
    obtain ⟨r, hr, hrh⟩ := List.mem_map.mp hmem
    have := List.find?_eq_none.mp hn r (List.mem_reverse.mpr hr)
    simp [hrh] at this
  · intro hmem
    apply List.find?_eq_none.mpr
    intro r hr
    simp only [decide_eq_true_eq]
    intro hrh
    exact hmem (List.mem_map.mpr ⟨r, List.mem_reverse.mp hr, hrh⟩)

theorem mapGet_eq_some {H F : Type} [DecidableEq H]
    (snap : List (RemoteRecord H F)) (h : H) (id : Nat)
    (hm : mapGet snap h = some id) :
    ∃ r ∈ snap, r.handle = h ∧ r.id = id := by
  unfold mapGet at hm
  obtain ⟨r, hfind, hid⟩ := Option.map_eq_some'.mp hm
  have hp := List.find?_some hfind
  simp only [decide_eq_true_eq] at hp
  exact ⟨r, List.mem_reverse.mp (List.mem_of_find?_eq_some hfind), hp, hid⟩

/-- C1: the plan implicit in `runSync` partitions handles exactly: a
desired handle missing from the listed records is a create, a desired
handle present is an update (always, with no field diffing), a listed
handle that is not desired is a delete; the three handle sets are
pairwise disjoint and are exactly desired minus existing, desired
intersect existing, and existing minus desired. -/
theorem planner_partition {H F : Type} [DecidableEq H]
    (occ : List (CoreOcc H F)) (current : List (RemoteRecord H F)) (h : H) :
    ((h ∈ (plannerCreates occ current).map CoreOcc.handle ↔
        h ∈ occ.map CoreOcc.handle ∧ h ∉ handlesOf current) ∧
     (h ∈ (plannerUpdates occ current).map CoreOcc.handle ↔
        h ∈ occ.map CoreOcc.handle ∧ h ∈ handlesOf current) ∧
     (h ∈ handlesOf (plannerDeletes occ current) ↔
        h ∈ handlesOf current ∧ h ∉ occ.map CoreOcc.handle)) ∧
    (¬ (h ∈ (plannerCreates occ current).map CoreOcc.handle ∧
        h ∈ (plannerUpdates occ current).map CoreOcc.handle) ∧
     ¬ (h ∈ (plannerCreates occ current).map CoreOcc.handle ∧
        h ∈ handlesOf (plannerDeletes occ current)) ∧
     ¬ (h ∈ (plannerUpdates occ current).map CoreOcc.handle ∧
        h ∈ handlesOf (plannerDeletes occ current))) := by
  have hc : h ∈ (plannerCreates occ current).map CoreOcc.handle ↔
      h ∈ occ.map CoreOcc.handle ∧ h ∉ handlesOf current := by
    unfold plannerCreates
    constructor
    · intro hmem
      obtain ⟨e, he, rfl⟩ := List.mem_map.mp hmem
      obtain ⟨heo, hnone⟩ := List.mem_filter.mp he
      rw [Option.isNone_iff_eq_none] at hnone
      exact ⟨List.mem_map_of_mem _ heo, (mapGet_eq_none_iff current e.handle).mp hnone⟩
    · rintro ⟨hmem, hnot⟩
      obtain ⟨e, he, rfl⟩ := List.mem_map.mp hmem
      refine List.mem_map_of_mem _ (List.mem_filter.mpr ⟨he, ?_⟩)
      rw [Option.isNone_iff_eq_none]
      exact (mapGet_eq_none_iff current e.handle).mpr hnot
  have hu : h ∈ (plannerUpdates occ current).map CoreOcc.handle ↔
      h ∈ occ.map CoreOcc.handle ∧ h ∈ handlesOf current := by
    unfold plannerUpdates
    constructor
    · intro hmem
      obtain ⟨e, he, rfl⟩ := List.mem_map.mp hmem
      obtain ⟨heo, hsome⟩ := List.mem_filter.mp he
      obtain ⟨id, hid⟩ := Option.isSome_iff_exists.mp hsome
      obtain ⟨r, hr, hrh, _⟩ := mapGet_eq_some current e.handle id hid
      exact ⟨List.mem_map_of_mem _ heo, List.mem_map.mpr ⟨r, hr, hrh⟩⟩
    · rintro ⟨hmem, hcur⟩
      obtain ⟨e, he, rfl⟩ := List.mem_map.mp hmem
      refine List.mem_map_of_mem _ (List.mem_filter.mpr ⟨he, ?_⟩)
      rw [← Option.ne_none_iff_isSome]
      intro hnone
      exact (mapGet_eq_none_iff current e.handle).mp hnone hcur
  have hd : h ∈ handlesOf (plannerDeletes occ current) ↔
      h ∈ handlesOf current ∧ h ∉ occ.map CoreOcc.handle := by
    unfold plannerDeletes handlesOf
    constructor
    · intro hmem
      obtain ⟨r, hr, rfl⟩ := List.mem_map.mp hmem
      obtain ⟨hrc, hna⟩ := List.mem_filter.mp hr
      simp only [Bool.not_eq_eq_eq_not, Bool.not_true, decide_eq_false_iff_not] at hna
      exact ⟨List.mem_map_of_mem _ hrc, hna⟩
    · rintro ⟨hmem, hnot⟩
      obtain ⟨r, hr, rfl⟩ := List.mem_map.mp hmem
      refine List.mem_map_of_mem _ (List.mem_filter.mpr ⟨hr, ?_⟩)
      simp only [Bool.not_eq_eq_eq_not, Bool.not_true, decide_eq_false_iff_not]
      exact hnot
  refine ⟨⟨hc, hu, hd⟩, ?_, ?_, ?_⟩
  · rintro ⟨h1, h2⟩
    exact (hc.mp h1).2 (hu.mp h2).2
  · rintro ⟨h1, h2⟩
    exact (hd.mp h2).2 (hc.mp h1).1
  · rintro ⟨h1, h2⟩
    exact (hd.mp h2).2 (hu.mp h1).1

/-- C1 witness at the spec's example: existing handles {1, 2, 3} and
desired handles {2, 3, 4} put 4 among the creates, 2 among the updates,
1 among the deletes, and 4 outside the updates. -/
theorem planner_partition_witness :
    4 ∈ (plannerCreates ([⟨2, 0⟩, ⟨3, 0⟩, ⟨4, 0⟩] : List (CoreOcc Nat Nat))
        [⟨11, 1, 0⟩, ⟨12, 2, 0⟩, ⟨13, 3, 0⟩]).map CoreOcc.handle ∧
    2 ∈ (plannerUpdates ([⟨2, 0⟩, ⟨3, 0⟩, ⟨4, 0⟩] : List (CoreOcc Nat Nat))
        [⟨11, 1, 0⟩, ⟨12, 2, 0⟩, ⟨13, 3, 0⟩]).map CoreOcc.handle ∧
    1 ∈ handlesOf (plannerDeletes ([⟨2, 0⟩, ⟨3, 0⟩, ⟨4, 0⟩] : List (CoreOcc Nat Nat))
        [⟨11, 1, 0⟩, ⟨12, 2, 0⟩, ⟨13, 3, 0⟩]) ∧
    ¬ (4 ∈ (plannerCreates ([⟨2, 0⟩, ⟨3, 0⟩, ⟨4, 0⟩] : List (CoreOcc Nat Nat))
        [⟨11, 1, 0⟩, ⟨12, 2, 0⟩, ⟨13, 3, 0⟩]).map CoreOcc.handle ∧
       4 ∈ (plannerUpdates ([⟨2, 0⟩, ⟨3, 0⟩, ⟨4, 0⟩] : List (CoreOcc Nat Nat))
        [⟨11, 1, 0⟩, ⟨12, 2, 0⟩, ⟨13, 3, 0⟩]).map CoreOcc.handle) :=
  ⟨(planner_partition _ _ 4).1.1.mpr ⟨by decide, by decide⟩,
   (planner_partition _ _ 2).1.2.1.mpr ⟨by decide, by decide⟩,
   (planner_partition _ _ 1).1.2.2.mpr ⟨by decide, by decide⟩,
   (planner_partition _ _ 4).2.1⟩

/-! ### Frame property of the 250-record snapshot (claim C10) -/

theorem applyOccs_cons_some {H F : Type} [DecidableEq H]
    (snap : List (RemoteRecord H F)) (ev : CoreOcc H F) (rest : List (CoreOcc H F))
    (s : StoreState H F) (id : Nat) (h : mapGet snap ev.handle = some id) :
    applyOccs snap (ev :: rest) s =
      if hasId s.recs id then
        applyOccs snap rest ⟨updateRec s.recs id ev.fields, s.nextId⟩
      else (s, false, 0) := by
  conv_lhs => rw [applyOccs]
  rw [h]

theorem applyOccs_cons_none {H F : Type} [DecidableEq H]
    (snap : List (RemoteRecord H F)) (ev : CoreOcc H F) (rest : List (CoreOcc H F))
    (s : StoreState H F) (h : mapGet snap ev.handle = none) :
    applyOccs snap (ev :: rest) s =
      if ev.handle ∈ handlesOf s.recs then (s, false, 1)
      else
        let out := applyOccs snap rest
          ⟨s.recs ++ [⟨s.nextId, ev.handle, ev.fields⟩], s.nextId + 1⟩
        (out.1, out.2.1, out.2.2 + 1) := by
  conv_lhs => rw [applyOccs]
  rw [h]

theorem applyOccs_preserves {H F : Type} [DecidableEq H]
    (snap : List (RemoteRecord H F)) (occ : List (CoreOcc H F)) :
    ∀ (s : StoreState H F) (r : RemoteRecord H F), r ∈ s.recs →
      r.id ∉ idsOf snap → r ∈ (applyOccs snap occ s).1.recs := by
  induction occ with
  | nil => intro s r hr _; exact hr
  | cons ev rest ih =>
    intro s r hr hid
    cases hm : mapGet snap ev.handle with
    | some id =>
      rw [applyOccs_cons_some snap ev rest s id hm]
      by_cases hh : hasId s.recs id = true
      · rw [if_pos hh]
        apply ih
        · have hin : id ∈ idsOf snap := by
            obtain ⟨q, hq, _, hqid⟩ := mapGet_eq_some snap ev.handle id hm
            exact hqid ▸ List.mem_map_of_mem _ hq
          have hrneq : r.id ≠ id := fun hEq => hid (hEq ▸ hin)
          unfold updateRec
          have hfix : (if r.id = id then { r with fields := ev.fields } else r) = r :=
            if_neg hrneq
          exact hfix ▸ List.mem_map_of_mem _ hr
        · exact hid
      · rw [if_neg hh]
        exact hr
    | none =>
      rw [applyOccs_cons_none snap ev rest s hm]
      by_cases hh : ev.handle ∈ handlesOf s.recs
      · rw [if_pos hh]
        exact hr
      · rw [if_neg hh]
        exact ih _ r (List.mem_append_left _ hr) hid

theorem applyDels_preserves {H F : Type} (ids : List Nat) :
    ∀ (s : StoreState H F) (r : RemoteRecord H F), r ∈ s.recs →
      r.id ∉ ids → r ∈ (applyDels ids s).1.recs := by
  induction ids with
  | nil => intro s r hr _; exact hr
  | cons id rest ih =>
    intro s r hr hid
    unfold applyDels
    by_cases hh : hasId s.recs id = true
    · rw [if_pos hh]
      apply ih
      · unfold deleteRec
        refine List.mem_filter.mpr ⟨hr, ?_⟩
        simp only [Bool.not_eq_eq_eq_not, Bool.not_true, decide_eq_false_iff_not]
        exact fun hEq => hid (hEq ▸ List.mem_cons_self id rest)
      · exact fun hmem => hid (List.mem_cons_of_mem _ hmem)
    · rw [if_neg hh]
      exact hr

/-- C10: the snapshot driving the update and delete decisions is the
first 250 listed records; a store record beyond that first page (its id
not among the snapshot ids) survives the run untouched — every update
target id returned by `currentMap` and every delete target id comes from
the snapshot, so the record is still present, unchanged, in the final
store, whether or not its handle is desired. -/
theorem runSync_beyond_page_untouched {H F : Type} [DecidableEq H]
    (occ : List (CoreOcc H F)) (s : StoreState H F) (r : RemoteRecord H F)
    (hr : r ∈ s.recs.drop 250)
    (hid : r.id ∉ idsOf (s.recs.take 250)) :
    (s.recs.take 250).length ≤ 250 ∧
    r ∈ (runSyncModel occ s).state.recs ∧
    (∀ e ∈ occ, ∀ id, mapGet (s.recs.take 250) e.handle = some id →
      id ∈ idsOf (s.recs.take 250)) ∧
    (∀ id ∈ ((s.recs.take 250).filter
        (fun n => !(decide (n.handle ∈ occ.map CoreOcc.handle)))).map RemoteRecord.id,
      id ∈ idsOf (s.recs.take 250)) := by
  have hrs : r ∈ s.recs := by
    have := List.take_append_drop 250 s.recs
    rw [← this]
    exact List.mem_append_right _ hr
  refine ⟨?_, ?_, ?_, ?_⟩
  · rw [List.length_take]
    omega
  · unfold runSyncModel
    have h1 := applyOccs_preserves (s.recs.take 250) occ s r hrs hid
    by_cases hok : (applyOccs (s.recs.take 250) occ s).2.1 = true
    · rw [if_pos hok]
      show r ∈ (applyDels _ _).1.recs
      apply applyDels_preserves
      · exact h1
      · intro hmem
        obtain ⟨q, hq, hqid⟩ := List.mem_map.mp hmem
        exact hid (hqid ▸ List.mem_map_of_mem _ (List.mem_filter.mp hq).1)
    · rw [if_neg hok]
      exact h1
  · intro e _ id hm
    obtain ⟨q, hq, _, hqid⟩ := mapGet_eq_some _ e.handle id hm
    exact hqid ▸ List.mem_map_of_mem _ hq
  · intro id hmem
    obtain ⟨q, hq, hqid⟩ := List.mem_map.mp hmem
    exact hqid ▸ List.mem_map_of_mem _ (List.mem_filter.mp hq).1

/-- C10 witness: a store of 251 records; the 251st record (id 250) is
beyond the one-page snapshot and survives a run whose desired set is
empty, even though its handle is absent from the desired set. -/
theorem runSync_beyond_page_untouched_witness :
    ((⟨250, 250, 0⟩ : RemoteRecord Nat Nat) ∈
        (((List.range 251).map (fun i => (⟨i, i, 0⟩ : RemoteRecord Nat Nat))).drop 250) ∧
      (250 : Nat) ∉ idsOf (((List.range 251).map
        (fun i => (⟨i, i, 0⟩ : RemoteRecord Nat Nat))).take 250)) ∧
    (⟨250, 250, 0⟩ : RemoteRecord Nat Nat) ∈
      (runSyncModel ([] : List (CoreOcc Nat Nat))
        ⟨(List.range 251).map (fun i => ⟨i, i, 0⟩), 300⟩).state.recs :=
  ⟨⟨by decide, by decide⟩,
    (runSync_beyond_page_untouched [] ⟨(List.range 251).map (fun i => ⟨i, i, 0⟩), 300⟩
      ⟨250, 250, 0⟩ (by decide) (by decide)).2.1⟩

/-! ### Mutation executor claims C8 and C9 -/

theorem attemptedOf_append (a b : List ExecEv) :
    attemptedOf (a ++ b) = attemptedOf a ++ attemptedOf b := by
  induction a with
  | nil => rfl
  | cons e t ih =>
    cases e with
    | upsertFail i => simp [attemptedOf, ih]
    | upsertOk i id => simp [attemptedOf, ih]
    | activeFail i id => simp [attemptedOf, ih]
    | activeOk i id => simp [attemptedOf, ih]

/-- C8 counterexample: in the sync-core `runSync` executor a store
validation error on a single item (here a duplicate-handle create,
reported via `userErrors`) is thrown and aborts the run: the run does not
complete and the remaining item (handle 2) is never applied. -/
theorem runSync_aborts_counterexample :
    ¬ (∀ (occ : List (CoreOcc Nat Nat)) (s : StoreState Nat Nat),
        (runSyncModel occ s).ok = true ∧
        (∀ e ∈ occ, e.handle ∈ handlesOf (runSyncModel occ s).state.recs)) := by
  intro h
  have := (h [⟨1, 10⟩, ⟨1, 20⟩, ⟨2, 30⟩] ⟨[], 0⟩).1
  exact absurd this (by decide)

/-- C8 amended: the `sync.mjs` executor wraps each item's write and
activation in `try { ... } catch { log }`, so a per-item failure never
escapes the loop: for every plan, every failure pattern, and every
starting index, the executor attempts exactly the whole remaining plan,
one write attempt per item, in order — items after a failed one are still
processed and the loop always runs to completion.  (The sync-core
`runSync` executor lacks this catch: a store validation error aborts its
run, as the counterexample records.) -/
theorem execRun_isolates_failures {F : Type} (uf af : Nat → Bool)
    (plan : List (ExecItem F)) (st : ExecState F) :
    attemptedOf (execRun uf af plan st).2.2 = List.range plan.length := by
  rw [List.range_eq_range']
  show attemptedOf (execGo uf af 0 plan st).2.2 = List.range' 0 plan.length
  suffices hgen : ∀ (p : List (ExecItem F)) (i : Nat) (s : ExecState F),
      attemptedOf (execGo uf af i p s).2.2 = List.range' i p.length by
    exact hgen plan 0 st
  intro p
  induction p with
  | nil => intro i s; rfl
  | cons it rest ih =>
    intro i s
    show attemptedOf ((execStep uf af i it s).2.2 ++
        (execGo uf af (i + 1) rest (execStep uf af i it s).1).2.2) =
      List.range' i (it :: rest).length
    rw [attemptedOf_append, ih]
    have hstep : attemptedOf (execStep uf af i it s).2.2 = [i] := by
      unfold execStep
      by_cases hu : uf i = true
      · rw [if_pos hu]
        rfl
      · rw [if_neg hu]
        by_cases ha : af i = true
        · rw [if_pos ha]
          rfl
        · rw [if_neg ha]
          rfl
    rw [hstep]
    rw [List.length_cons, List.range'_succ]
    rfl

theorem doUpsert_found {F : Type} (st : ExecState F) (h : List Char) (f : F)
    (r0 : ExecRecord F)
    (hf : st.recs.reverse.find? (fun q => decide (q.handle = h)) = some r0) :
    doUpsert st h f =
      (⟨st.recs.map (fun q => if q.id = r0.id then { q with fields := f } else q),
        st.nextId⟩, r0.id) := by
  conv_lhs => rw [doUpsert]
  rw [hf]

theorem doUpsert_missing {F : Type} (st : ExecState F) (h : List Char) (f : F)
    (hf : st.recs.reverse.find? (fun q => decide (q.handle = h)) = none) :
    doUpsert st h f =
      (⟨st.recs ++ [⟨st.nextId, h, f, false⟩], st.nextId + 1⟩, st.nextId) := by
  conv_lhs => rw [doUpsert]
  rw [hf]

theorem doUpsert_keeps_pub {F : Type} (st : ExecState F) (h : List Char) (f : F)
    (id : Nat) (hx : ∃ r ∈ st.recs, r.id = id ∧ r.published = true) :
    ∃ r ∈ (doUpsert st h f).1.recs, r.id = id ∧ r.published = true := by
  obtain ⟨r, hr, hid, hpub⟩ := hx
  cases hf : st.recs.reverse.find? (fun q => decide (q.handle = h)) with
  | some r0 =>
    rw [doUpsert_found st h f r0 hf]
    refine ⟨if r.id = r0.id then { r with fields := f } else r,
      List.mem_map_of_mem _ hr, ?_, ?_⟩
    · by_cases hcase : r.id = r0.id
      · rw [if_pos hcase]; exact hid
      · rw [if_neg hcase]; exact hid
    · by_cases hcase : r.id = r0.id
      · rw [if_pos hcase]; exact hpub
      · rw [if_neg hcase]; exact hpub
  | none =>
    rw [doUpsert_missing st h f hf]
    exact ⟨r, List.mem_append_left _ hr, hid, hpub⟩

theorem doUpsert_id_exists {F : Type} (st : ExecState F) (h : List Char) (f : F) :
    ∃ r ∈ (doUpsert st h f).1.recs, r.id = (doUpsert st h f).2 := by
  cases hf : st.recs.reverse.find? (fun q => decide (q.handle = h)) with
  | some r0 =>
    rw [doUpsert_found st h f r0 hf]
    have hr0 : r0 ∈ st.recs := List.mem_reverse.mp (List.mem_of_find?_eq_some hf)
    exact ⟨{ r0 with fields := f }, by
      have : (if r0.id = r0.id then { r0 with fields := f } else r0) = { r0 with fields := f } :=
        if_pos rfl
      exact this ▸ List.mem_map_of_mem _ hr0, rfl⟩
  | none =>
    rw [doUpsert_missing st h f hf]
    exact ⟨⟨st.nextId, h, f, false⟩, List.mem_append_right _ (List.mem_singleton.mpr rfl), rfl⟩

theorem doUpsert_wf {F : Type} (st : ExecState F) (h : List Char) (f : F)
    (hwf : ∀ r ∈ st.recs, r.id < st.nextId) :
    ∀ r ∈ (doUpsert st h f).1.recs, r.id < (doUpsert st h f).1.nextId := by
  cases hf : st.recs.reverse.find? (fun q => decide (q.handle = h)) with
  | some r0 =>
    rw [doUpsert_found st h f r0 hf]
    intro r hr
    obtain ⟨q, hq, rfl⟩ := List.mem_map.mp hr
    by_cases hcase : q.id = r0.id
    · rw [if_pos hcase]; exact hwf q hq
    · rw [if_neg hcase]; exact hwf q hq
  | none =>
    rw [doUpsert_missing st h f hf]
    intro r hr
    rcases List.mem_append.mp hr with hl | hr1
    · exact Nat.lt_succ_of_lt (hwf r hl)
    · rw [List.mem_singleton.mp hr1]
      exact Nat.lt_succ_self _
  
theorem setPub_keeps_pub {F : Type} (st : ExecState F) (pid id : Nat)
    (hx : ∃ r ∈ st.recs, r.id = id ∧ r.published = true) :
    ∃ r ∈ (setPub st pid).recs, r.id = id ∧ r.published = true := by
  obtain ⟨r, hr, hid, hpub⟩ := hx
  refine ⟨if r.id = pid then { r with published := true } else r,
    List.mem_map_of_mem _ hr, ?_, ?_⟩
  · by_cases hcase : r.id = pid
    · rw [if_pos hcase]; exact hid
    · rw [if_neg hcase]; exact hid
  · by_cases hcase : r.id = pid
    · rw [if_pos hcase]
    · rw [if_neg hcase]; exact hpub

theorem setPub_sets {F : Type} (st : ExecState F) (id : Nat)
    (hx : ∃ r ∈ st.recs, r.id = id) :
    ∃ r ∈ (setPub st id).recs, r.id = id ∧ r.published = true := by
  obtain ⟨r, hr, hid⟩ := hx
  refine ⟨{ r with published := true }, ?_, hid, rfl⟩
  have : (if r.id = id then { r with published := true } else r) =
      { r with published := true } := if_pos hid
  exact this ▸ List.mem_map_of_mem _ hr

theorem setPub_wf {F : Type} (st : ExecState F) (id : Nat)
    (hwf : ∀ r ∈ st.recs, r.id < st.nextId) :
    ∀ r ∈ (setPub st id).recs, r.id < (setPub st id).nextId := by
  intro r hr
  obtain ⟨q, hq, rfl⟩ := List.mem_map.mp hr
  by_cases hcase : q.id = id
  · rw [if_pos hcase]; exact hwf q hq
  · rw [if_neg hcase]; exact hwf q hq

theorem execStep_keeps_pub {F : Type} (uf af : Nat → Bool) (i : Nat)
    (it : ExecItem F) (st : ExecState F) (id : Nat)
    (hx : ∃ r ∈ st.recs, r.id = id ∧ r.published = true) :
    ∃ r ∈ (execStep uf af i it st).1.recs, r.id = id ∧ r.published = true := by
  unfold execStep
  by_cases hu : uf i = true
  · rw [if_pos hu]
    exact hx
  · rw [if_neg hu]
    by_cases ha : af i = true
    · rw [if_pos ha]
      exact doUpsert_keeps_pub st it.handle it.fields id hx
    · rw [if_neg ha]
      exact setPub_keeps_pub _ _ id (doUpsert_keeps_pub st it.handle it.fields id hx)

theorem execStep_wf {F : Type} (uf af : Nat → Bool) (i : Nat)
    (it : ExecItem F) (st : ExecState F)
    (hwf : ∀ r ∈ st.recs, r.id < st.nextId) :
    ∀ r ∈ (execStep uf af i it st).1.recs, r.id < (execStep uf af i it st).1.nextId := by
  unfold execStep
  by_cases hu : uf i = true
  · rw [if_pos hu]
    exact hwf
  · rw [if_neg hu]
    by_cases ha : af i = true
    · rw [if_pos ha]
      exact doUpsert_wf st it.handle it.fields hwf
    · rw [if_neg ha]
      exact setPub_wf _ _ (doUpsert_wf st it.handle it.fields hwf)

theorem execGo_keeps_pub {F : Type} (uf af : Nat → Bool) :
    ∀ (plan : List (ExecItem F)) (i : Nat) (st : ExecState F) (id : Nat),
      (∃ r ∈ st.recs, r.id = id ∧ r.published = true) →
      ∃ r ∈ (execGo uf af i plan st).1.recs, r.id = id ∧ r.published = true := by
  intro plan
  induction plan with
  | nil => intro i st id hx; exact hx
  | cons it rest ih =>
    intro i st id hx
    show ∃ r ∈ (execGo uf af (i + 1) rest (execStep uf af i it st).1).1.recs, _
    exact ih (i + 1) _ id (execStep_keeps_pub uf af i it st id hx)

theorem execGo_immediate {F : Type} (uf af : Nat → Bool) :
    ∀ (plan : List (ExecItem F)) (i : Nat) (st : ExecState F) (k i0 id : Nat),
      (execGo uf af i plan st).2.2[k]? = some (ExecEv.upsertOk i0 id) →
      ((execGo uf af i plan st).2.2[k + 1]? = some (ExecEv.activeOk i0 id) ∨
       (execGo uf af i plan st).2.2[k + 1]? = some (ExecEv.activeFail i0 id)) := by
  intro plan
  induction plan with
  | nil =>
    intro i st k i0 id h
    simp [execGo] at h
  | cons it rest ih =>
    intro i st k i0 id h
    have htr : (execGo uf af i (it :: rest) st).2.2 =
        (execStep uf af i it st).2.2 ++
        (execGo uf af (i + 1) rest (execStep uf af i it st).1).2.2 := rfl
    rw [htr] at h ⊢
    by_cases hu : uf i = true
    · have hstep : (execStep uf af i it st).2.2 = [ExecEv.upsertFail i] := by
        unfold execStep
        rw [if_pos hu]
      rw [hstep] at h ⊢
      cases k with
      | zero => simp at h
      | succ k' =>
        rw [List.singleton_append, List.getElem?_cons_succ] at h
        rw [List.singleton_append, List.getElem?_cons_succ]
        exact ih (i + 1) _ k' i0 id h
    · by_cases ha : af i = true
      · have hstep : (execStep uf af i it st).2.2 =
            [ExecEv.upsertOk i (doUpsert st it.handle it.fields).2,
             ExecEv.activeFail i (doUpsert st it.handle it.fields).2] := by
          unfold execStep
          rw [if_neg hu, if_pos ha]
        rw [hstep] at h ⊢
        cases k with
        | zero =>
          rw [List.cons_append, List.getElem?_cons_zero] at h
          simp only [Option.some.injEq, ExecEv.upsertOk.injEq] at h
          obtain ⟨rfl, rfl⟩ := h
          right
          rw [List.cons_append, List.getElem?_cons_succ, List.cons_append,
            List.getElem?_cons_zero]
        | succ k' =>
          cases k' with
          | zero =>
            rw [List.cons_append, List.getElem?_cons_succ, List.cons_append,
              List.getElem?_cons_zero] at h
            simp at h
          | succ k'' =>
            rw [List.cons_append, List.getElem?_cons_succ, List.cons_append,
              List.getElem?_cons_succ] at h
            rw [List.cons_append, List.getElem?_cons_succ, List.cons_append,
              List.getElem?_cons_succ]
            exact ih (i + 1) _ k'' i0 id h
      · have hstep : (execStep uf af i it st).2.2 =
            [ExecEv.upsertOk i (doUpsert st it.handle it.fields).2,
             ExecEv.activeOk i (doUpsert st it.handle it.fields).2] := by
          unfold execStep
          rw [if_neg hu, if_neg ha]
        rw [hstep] at h ⊢
        cases k with
        | zero =>
          rw [List.cons_append, List.getElem?_cons_zero] at h
          simp only [Option.some.injEq, ExecEv.upsertOk.injEq] at h
          obtain ⟨rfl, rfl⟩ := h
          left
          rw [List.cons_append, List.getElem?_cons_succ, List.cons_append,
            List.getElem?_cons_zero]
        | succ k' =>
          cases k' with
          | zero =>
            rw [List.cons_append, List.getElem?_cons_succ, List.cons_append,
              List.getElem?_cons_zero] at h
            simp at h
          | succ k'' =>
            rw [List.cons_append, List.getElem?_cons_succ, List.cons_append,
              List.getElem?_cons_succ] at h
            rw [List.cons_append, List.getElem?_cons_succ, List.cons_append,
              List.getElem?_cons_succ]
            exact ih (i + 1) _ k'' i0 id h

/-- C9 counterexample: a successful write whose following `setActive`
call throws (store validation error) is caught by the loop's catch, and
the written record ends the run unpublished — the claim that a record is
never left in a not-yet-visible state after a successful write fails. -/
theorem setActive_failure_counterexample :
    ¬ (∀ (uf af : Nat → Bool) (plan : List (ExecItem Nat)) (st : ExecState Nat)
        (i id : Nat),
        ExecEv.upsertOk i id ∈ (execRun uf af plan st).2.2 →
        ∀ r ∈ (execRun uf af plan st).1.recs, r.id = id → r.published = true) := by
  intro h
  have := h (fun _ => false) (fun _ => true) [⟨['a'], 5⟩] ⟨[], 0⟩ 0 0 (by decide)
    ⟨0, ['a'], 5, false⟩ (by decide) rfl
  exact absurd this (by decide)

/-- C9 amended: the executor issues the activation immediately after each
successful write — in the store-call trace, each successful write event
is directly followed by the activation attempt on that same record id —
and whenever that activation call itself succeeds, the record ends the
run in the published state.  When the activation call fails, the item is
logged and skipped, and the record may remain unpublished (see the
counterexample). -/
theorem executor_immediate_activation {F : Type} (uf af : Nat → Bool)
    (plan : List (ExecItem F)) (st : ExecState F) :
    (∀ (k i id : Nat),
      (execRun uf af plan st).2.2[k]? = some (ExecEv.upsertOk i id) →
      ((execRun uf af plan st).2.2[k + 1]? = some (ExecEv.activeOk i id) ∨
       (execRun uf af plan st).2.2[k + 1]? = some (ExecEv.activeFail i id))) ∧
    (∀ (i id : Nat), ExecEv.activeOk i id ∈ (execRun uf af plan st).2.2 →
      ∃ r ∈ (execRun uf af plan st).1.recs, r.id = id ∧ r.published = true) := by
  constructor
  · intro k i id h
    exact execGo_immediate uf af plan 0 st k i id h
  · suffices hgen : ∀ (p : List (ExecItem F)) (j : Nat) (s : ExecState F)
        (i id : Nat), ExecEv.activeOk i id ∈ (execGo uf af j p s).2.2 →
        ∃ r ∈ (execGo uf af j p s).1.recs, r.id = id ∧ r.published = true by
      exact fun i id h => hgen plan 0 st i id h
    intro p
    induction p with
    | nil =>
      intro j s i id h
      simp [execGo] at h
    | cons it rest ihp =>
      intro j s i id h
      have htr : (execGo uf af j (it :: rest) s).2.2 =
          (execStep uf af j it s).2.2 ++
          (execGo uf af (j + 1) rest (execStep uf af j it s).1).2.2 := rfl
      have hfin : (execGo uf af j (it :: rest) s).1 =
          (execGo uf af (j + 1) rest (execStep uf af j it s).1).1 := rfl
      rw [htr] at h
      rw [hfin]
      rcases List.mem_append.mp h with hmem | hmem
      · by_cases hu : uf j = true
        · have hstep : (execStep uf af j it s).2.2 = [ExecEv.upsertFail j] := by
            unfold execStep
            rw [if_pos hu]
          rw [hstep] at hmem
          simp at hmem
        · by_cases ha : af j = true
          · have hstep : (execStep uf af j it s).2.2 =
                [ExecEv.upsertOk j (doUpsert s it.handle it.fields).2,
                 ExecEv.activeFail j (doUpsert s it.handle it.fields).2] := by
              unfold execStep
              rw [if_neg hu, if_pos ha]
            rw [hstep] at hmem
            simp at hmem
          · have hstep : (execStep uf af j it s).2.2 =
                [ExecEv.upsertOk j (doUpsert s it.handle it.fields).2,
                 ExecEv.activeOk j (doUpsert s it.handle it.fields).2] := by
              unfold execStep
              rw [if_neg hu, if_neg ha]
            rw [hstep] at hmem
            have hid : id = (doUpsert s it.handle it.fields).2 := by
              rcases List.mem_cons.mp hmem with h1 | h1
              · exact absurd h1 (by simp)
              · rcases List.mem_cons.mp h1 with h2 | h2
                · exact (ExecEv.activeOk.injEq _ _ _ _).mp h2 |>.2
                · simp at h2
            have hst1 : (execStep uf af j it s).1 =
                setPub (doUpsert s it.handle it.fields).1
                  (doUpsert s it.handle it.fields).2 := by
              unfold execStep
              rw [if_neg hu, if_neg ha]
            apply execGo_keeps_pub
            rw [hst1, hid]
            exact setPub_sets _ _ (doUpsert_id_exists s it.handle it.fields)
      · exact ihp (j + 1) _ i id hmem

/-- C9 amended witness: with no injected failures, the single-item run's
trace has the write at position 0 directly followed by the activation,
and the written record ends the run published. -/
theorem executor_immediate_activation_witness :
    ((execRun (fun _ => false) (fun _ => false) [⟨['a'], 5⟩]
        (⟨[], 0⟩ : ExecState Nat)).2.2[0]? = some (ExecEv.upsertOk 0 0) ∧
     ((execRun (fun _ => false) (fun _ => false) [⟨['a'], 5⟩]
        (⟨[], 0⟩ : ExecState Nat)).2.2[0 + 1]? = some (ExecEv.activeOk 0 0) ∨
      (execRun (fun _ => false) (fun _ => false) [⟨['a'], 5⟩]
        (⟨[], 0⟩ : ExecState Nat)).2.2[0 + 1]? = some (ExecEv.activeFail 0 0))) ∧
    (ExecEv.activeOk 0 0 ∈ (execRun (fun _ => false) (fun _ => false) [⟨['a'], 5⟩]
        (⟨[], 0⟩ : ExecState Nat)).2.2 ∧
     ∃ r ∈ (execRun (fun _ => false) (fun _ => false) [⟨['a'], 5⟩]
        (⟨[], 0⟩ : ExecState Nat)).1.recs, r.id = 0 ∧ r.published = true) :=
  ⟨⟨by decide, (executor_immediate_activation (fun _ => false) (fun _ => false)
      [⟨['a'], 5⟩] ⟨[], 0⟩).1 0 0 0 (by decide)⟩,
   ⟨by decide, (executor_immediate_activation (fun _ => false) (fun _ => false)
      [⟨['a'], 5⟩] ⟨[], 0⟩).2 0 0 (by decide)⟩⟩

/-! ### Idempotence of `runSync` (claim C2): supporting lemmas -/

theorem hasId_iff {H F : Type} (recs : List (RemoteRecord H F)) (id : Nat) :
    hasId recs id = true ↔ id ∈ idsOf recs := by
  unfold hasId idsOf
  rw [List.any_eq_true]
  constructor
  · rintro ⟨r, hr, hd⟩
    exact (of_decide_eq_true hd) ▸ List.mem_map_of_mem _ hr
  · intro hmem
    obtain ⟨r, hr, hrid⟩ := List.mem_map.mp hmem
    exact ⟨r, hr, decide_eq_true hrid⟩

theorem handlesOf_updateRec {H F : Type} (recs : List (RemoteRecord H F))
    (id : Nat) (f : F) : handlesOf (updateRec recs id f) = handlesOf recs := by
  unfold handlesOf updateRec
  rw [List.map_map]
  apply List.map_congr_left
  intro r _
  by_cases hcase : r.id = id
  · rw [Function.comp_apply, if_pos hcase]
  · rw [Function.comp_apply, if_neg hcase]

theorem idsOf_updateRec {H F : Type} (recs : List (RemoteRecord H F))
    (id : Nat) (f : F) : idsOf (updateRec recs id f) = idsOf recs := by
  unfold idsOf updateRec
  rw [List.map_map]
  apply List.map_congr_left
  intro r _
  by_cases hcase : r.id = id
  · rw [Function.comp_apply, if_pos hcase]
  · rw [Function.comp_apply, if_neg hcase]

theorem updateRec_mem {H F : Type} {recs : List (RemoteRecord H F)}
    {id : Nat} {f : F} {r' : RemoteRecord H F} (h : r' ∈ updateRec recs id f) :
    ∃ r ∈ recs, r' = (if r.id = id then { r with fields := f } else r) := by
  obtain ⟨r, hr, hEq⟩ := List.mem_map.mp h
  exact ⟨r, hr, hEq.symm⟩

theorem updateRec_id_handle {H F : Type}
    {id : Nat} {f : F} {r : RemoteRecord H F} :
    ((if r.id = id then { r with fields := f } else r).id = r.id ∧
     (if r.id = id then { r with fields := f } else r).handle = r.handle) := by
  by_cases hcase : r.id = id
  · rw [if_pos hcase]
    exact ⟨rfl, rfl⟩
  · rw [if_neg hcase]
    exact ⟨rfl, rfl⟩

theorem updateRec_eq_self {H F : Type} (recs : List (RemoteRecord H F))
    (id : Nat) (f : F) (h : ∀ r ∈ recs, r.id = id → r.fields = f) :
    updateRec recs id f = recs := by
  unfold updateRec
  have : ∀ r ∈ recs, (if r.id = id then { r with fields := f } else r) = r := by
    intro r hr
    by_cases hcase : r.id = id
    · rw [if_pos hcase, ← h r hr hcase]
    · rw [if_neg hcase]
  calc recs.map (fun r => if r.id = id then { r with fields := f } else r)
      = recs.map (fun r => r) := List.map_congr_left this
    _ = recs := List.map_id' recs

theorem nodup_map_inj {A B : Type} {l : List A} {f : A → B}
    (hN : (l.map f).Nodup) {x y : A} (hx : x ∈ l) (hy : y ∈ l)
    (hf : f x = f y) : x = y :=
  List.inj_on_of_nodup_map hN hx hy hf

theorem nodup_subset_length_le {A : Type} [DecidableEq A]
    {l l' : List A} (hN : l.Nodup) (hSub : ∀ a ∈ l, a ∈ l') :
    l.length ≤ l'.length := by
  calc l.length = l.toFinset.card := (List.toFinset_card_of_nodup hN).symm
    _ ≤ l'.toFinset.card := Finset.card_le_card (fun x hx => by
        simp only [List.mem_toFinset] at hx ⊢
        exact hSub x hx)
    _ ≤ l'.length := l'.toFinset_card_le

theorem syncInv_update {H F : Type} [DecidableEq H] (orig : StoreState H F)
    (ps : List (CoreOcc H F)) (ev : CoreOcc H F) (s : StoreState H F)
    (inv : SyncLoopInv orig ps s)
    (hPN : ev.handle ∉ ps.map CoreOcc.handle)
    (id : Nat) (hm : mapGet orig.recs ev.handle = some id) :
    hasId s.recs id = true ∧
    SyncLoopInv orig (ps ++ [ev]) ⟨updateRec s.recs id ev.fields, s.nextId⟩ := by
  obtain ⟨q, hq, hqh, hqid⟩ := mapGet_eq_some orig.recs ev.handle id hm
  have hidMem : id ∈ idsOf s.recs := inv.idsSub id (hqid ▸ List.mem_map_of_mem _ hq)
  refine ⟨(hasId_iff _ _).mpr hidMem, ?_, ?_, ?_, ?_, ?_, ?_, ?_, ?_, ?_, ?_, ?_⟩
  · intro i hi
    rw [idsOf_updateRec]
    exact inv.idsSub i hi
  · rw [idsOf_updateRec]
    exact inv.idsNodup
  · intro r' hr'
    obtain ⟨r, hr, rfl⟩ := updateRec_mem hr'
    rw [updateRec_id_handle.1]
    exact inv.idsLt r hr
  · exact inv.nextLe
  · intro r' hr'
    obtain ⟨r, hr, rfl⟩ := updateRec_mem hr'
    rw [updateRec_id_handle.2]
    rcases inv.handleSub r hr with h1 | h1
    · exact Or.inl h1
    · refine Or.inr ?_
      rw [List.map_append]
      exact List.mem_append_left _ h1
  · intro e he
    show e.handle ∈ handlesOf (updateRec s.recs id ev.fields)
    rw [handlesOf_updateRec]
    rcases List.mem_append.mp he with h1 | h1
    · exact inv.procPresent e h1
    · rw [List.mem_singleton.mp h1]
      obtain ⟨r, hr, hrid⟩ := List.mem_map.mp hidMem
      have hrq : r.handle = q.handle := inv.idHandle q hq r hr (by rw [hrid, hqid])
      rw [← hqh, ← hrq]
      exact List.mem_map_of_mem _ hr
  · intro e he r' hr' hrh
    obtain ⟨r, hr, rfl⟩ := updateRec_mem hr'
    rw [updateRec_id_handle.2] at hrh
    rcases List.mem_append.mp he with h1 | h1
    · by_cases hcase : r.id = id
      · have hrq : r.handle = q.handle := inv.idHandle q hq r hr (by rw [hcase, hqid])
        have hEq : e.handle = ev.handle := by rw [← hrh, hrq, hqh]
        have : ev.handle ∈ ps.map CoreOcc.handle := by
          rw [← hEq]
          exact List.mem_map_of_mem _ h1
        exact absurd this hPN
      · rw [if_neg hcase]
        exact inv.procFields e h1 r hr hrh
    · rw [List.mem_singleton.mp h1] at hrh ⊢
      by_cases hcase : r.id = id
      · rw [if_pos hcase]
      · have hrid : r.id = q.id := inv.handleId q hq r hr (by rw [hrh, hqh])
        exact absurd (by rw [hrid, hqid]) hcase
  · show (handlesOf (updateRec s.recs id ev.fields)).Nodup
    rw [handlesOf_updateRec]
    exact inv.handlesNodup
  · intro q' hq' r' hr' hid'
    obtain ⟨r, hr, rfl⟩ := updateRec_mem hr'
    rw [updateRec_id_handle.2]
    rw [updateRec_id_handle.1] at hid'
    exact inv.idHandle q' hq' r hr hid'
  · intro q' hq' r' hr' hh'
    obtain ⟨r, hr, rfl⟩ := updateRec_mem hr'
    rw [updateRec_id_handle.1]
    rw [updateRec_id_handle.2] at hh'
    exact inv.handleId q' hq' r hr hh'
  · intro r' hr'
    obtain ⟨r, hr, rfl⟩ := updateRec_mem hr'
    rw [updateRec_id_handle.1, updateRec_id_handle.2]
    exact inv.newNotOrig r hr

theorem syncInv_create {H F : Type} [DecidableEq H] (orig : StoreState H F)
    (ps : List (CoreOcc H F)) (ev : CoreOcc H F) (s : StoreState H F)
    (inv : SyncLoopInv orig ps s)
    (hPN : ev.handle ∉ ps.map CoreOcc.handle)
    (horigN : ∀ r ∈ orig.recs, r.id < orig.nextId)
    (hm : mapGet orig.recs ev.handle = none) :
    ev.handle ∉ handlesOf s.recs ∧
    SyncLoopInv orig (ps ++ [ev])
      ⟨s.recs ++ [⟨s.nextId, ev.handle, ev.fields⟩], s.nextId + 1⟩ := by
  have hOut : ev.handle ∉ handlesOf orig.recs := (mapGet_eq_none_iff _ _).mp hm
  have hguard : ev.handle ∉ handlesOf s.recs := by
    intro hmem
    obtain ⟨r, hr, hrh⟩ := List.mem_map.mp hmem
    rcases inv.handleSub r hr with h1 | h1
    · exact hOut (hrh ▸ h1)
    · exact hPN (hrh ▸ h1)
  have hIds : idsOf (s.recs ++ [⟨s.nextId, ev.handle, ev.fields⟩]) =
      idsOf s.recs ++ [s.nextId] := by
    unfold idsOf
    rw [List.map_append]
    rfl
  have hHs : handlesOf (s.recs ++ [⟨s.nextId, ev.handle, ev.fields⟩]) =
      handlesOf s.recs ++ [ev.handle] := by
    unfold handlesOf
    rw [List.map_append]
    rfl
  refine ⟨hguard, ?_, ?_, ?_, ?_, ?_, ?_, ?_, ?_, ?_, ?_, ?_⟩
  · intro i hi
    rw [hIds]
    exact List.mem_append_left _ (inv.idsSub i hi)
  · rw [hIds]
    rw [List.nodup_append]
    refine ⟨inv.idsNodup, List.nodup_singleton _, ?_⟩
    intro a ha hb
    rw [List.mem_singleton.mp hb] at ha
    obtain ⟨r, hr, hrid⟩ := List.mem_map.mp ha
    exact absurd hrid (Nat.ne_of_lt (inv.idsLt r hr))
  · intro r hr
    rcases List.mem_append.mp hr with h1 | h1
    · exact Nat.lt_succ_of_lt (inv.idsLt r h1)
    · rw [List.mem_singleton.mp h1]
      exact Nat.lt_succ_self _
  · exact Nat.le_succ_of_le inv.nextLe
  · intro r hr
    rcases List.mem_append.mp hr with h1 | h1
    · rcases inv.handleSub r h1 with h2 | h2
      · exact Or.inl h2
      · refine Or.inr ?_
        rw [List.map_append]
        exact List.mem_append_left _ h2
    · rw [List.mem_singleton.mp h1]
      refine Or.inr ?_
      rw [List.map_append]
      exact List.mem_append_right _ (by simp)
  · intro e he
    show e.handle ∈ handlesOf (s.recs ++ [⟨s.nextId, ev.handle, ev.fields⟩])
    rw [hHs]
    rcases List.mem_append.mp he with h1 | h1
    · exact List.mem_append_left _ (inv.procPresent e h1)
    · rw [List.mem_singleton.mp h1]
      exact List.mem_append_right _ (by simp)
  · intro e he r hr hrh
    rcases List.mem_append.mp hr with h1 | h1
    · rcases List.mem_append.mp he with h2 | h2
      · exact inv.procFields e h2 r h1 hrh
      · rw [List.mem_singleton.mp h2] at hrh
        exact absurd (hrh ▸ List.mem_map_of_mem _ h1) hguard
    · rw [List.mem_singleton.mp h1] at hrh ⊢
      rcases List.mem_append.mp he with h2 | h2
      · have : ev.handle ∈ ps.map CoreOcc.handle := by
          rw [show ev.handle = e.handle from hrh]
          exact List.mem_map_of_mem _ h2
        exact absurd this hPN
      · rw [List.mem_singleton.mp h2]
  · show (handlesOf (s.recs ++ [⟨s.nextId, ev.handle, ev.fields⟩])).Nodup
    rw [hHs, List.nodup_append]
    refine ⟨inv.handlesNodup, List.nodup_singleton _, ?_⟩
    intro a ha hb
    rw [List.mem_singleton.mp hb] at ha
    exact hguard ha
  · intro q hq r hr hid
    rcases List.mem_append.mp hr with h1 | h1
    · exact inv.idHandle q hq r h1 hid
    · rw [List.mem_singleton.mp h1] at hid
      have : q.id < s.nextId := Nat.lt_of_lt_of_le (horigN q hq) inv.nextLe
      exact absurd hid.symm (Nat.ne_of_lt this)
  · intro q hq r hr hh
    rcases List.mem_append.mp hr with h1 | h1
    · exact inv.handleId q hq r h1 hh
    · rw [List.mem_singleton.mp h1] at hh
      have hmem : ev.handle ∈ handlesOf orig.recs := by
        have hEv : ev.handle = q.handle := hh
        rw [hEv]
        exact List.mem_map_of_mem _ hq
      exact absurd hmem hOut
  · intro r hr
    rcases List.mem_append.mp hr with h1 | h1
    · exact inv.newNotOrig r h1
    · rw [List.mem_singleton.mp h1]
      exact Or.inr hOut

theorem applyDels_cons {H F : Type} (id : Nat) (rest : List Nat)
    (s : StoreState H F) :
    applyDels (id :: rest) s =
      if hasId s.recs id then
        let out := applyDels rest ⟨deleteRec s.recs id, s.nextId⟩
        (out.1, out.2.1, out.2.2 + 1)
      else (s, false, 1) := by
  conv_lhs => rw [applyDels]

theorem applyDels_run {H F : Type} :
    ∀ (ids : List Nat) (s : StoreState H F),
      ids.Nodup → (∀ i ∈ ids, i ∈ idsOf s.recs) →
      applyDels ids s =
        (⟨s.recs.filter (fun r => !(decide (r.id ∈ ids))), s.nextId⟩,
          true, ids.length) := by
  intro ids
  induction ids with
  | nil =>
    intro s _ _
    have hf : s.recs.filter (fun r => !(decide (r.id ∈ ([] : List Nat)))) = s.recs := by
      rw [List.filter_eq_self]
      intro a _
      simp
    show (s, true, 0) = _
    rw [hf]
    rfl
  | cons id rest ih =>
    intro s hN hSub
    have hhas : hasId s.recs id = true :=
      (hasId_iff _ _).mpr (hSub id (List.mem_cons_self id rest))
    rw [applyDels_cons, if_pos hhas]
    have hN' : rest.Nodup := (List.nodup_cons.mp hN).2
    have hidNot : id ∉ rest := (List.nodup_cons.mp hN).1
    have hSub' : ∀ i ∈ rest, i ∈ idsOf (deleteRec s.recs id) := by
      intro i hi
      obtain ⟨r, hr, hrid⟩ := List.mem_map.mp (hSub i (List.mem_cons_of_mem id hi))
      have hrmem : r ∈ deleteRec s.recs id := by
        unfold deleteRec
        refine List.mem_filter.mpr ⟨hr, ?_⟩
        simp only [Bool.not_eq_eq_eq_not, Bool.not_true, decide_eq_false_iff_not]
        intro hEq
        have hiid : i = id := by rw [← hrid, hEq]
        rw [hiid] at hi
        exact hidNot hi
      exact hrid ▸ List.mem_map_of_mem _ hrmem
    rw [ih ⟨deleteRec s.recs id, s.nextId⟩ hN' hSub']
    have hfil : (deleteRec s.recs id).filter (fun r => !(decide (r.id ∈ rest))) =
        s.recs.filter (fun r => !(decide (r.id ∈ id :: rest))) := by
      unfold deleteRec
      rw [List.filter_filter]
      apply List.filter_congr
      intro r _
      by_cases h1 : r.id = id <;> by_cases h2 : r.id ∈ rest <;>
        simp [h1, h2]
    rw [hfil]
    rfl

theorem applyOccs_run {H F : Type} [DecidableEq H] (orig : StoreState H F)
    (horigN : ∀ r ∈ orig.recs, r.id < orig.nextId) :
    ∀ (rest ps : List (CoreOcc H F)) (s : StoreState H F),
      ((ps ++ rest).map CoreOcc.handle).Nodup →
      SyncLoopInv orig ps s →
      (applyOccs orig.recs rest s).2.1 = true ∧
      SyncLoopInv orig (ps ++ rest) (applyOccs orig.recs rest s).1 := by
  intro rest
  induction rest with
  | nil =>
    intro ps s hN inv
    exact ⟨rfl, by simpa using inv⟩
  | cons ev rest ih =>
    intro ps s hN inv
    have hPN : ev.handle ∉ ps.map CoreOcc.handle := by
      rw [List.map_append] at hN
      have hD := (List.nodup_append.mp hN).2.2
      intro hmem
      exact hD hmem (by simp)
    have hassoc : ps ++ ev :: rest = (ps ++ [ev]) ++ rest := by simp
    cases hm : mapGet orig.recs ev.handle with
    | some id =>
      obtain ⟨hhas, inv'⟩ := syncInv_update orig ps ev s inv hPN id hm
      rw [applyOccs_cons_some _ _ _ _ _ hm, if_pos hhas]
      have hrec := ih (ps ++ [ev]) _ (by rw [← hassoc]; exact hN) inv'
      rw [hassoc]
      exact hrec
    | none =>
      obtain ⟨hnot, inv'⟩ := syncInv_create orig ps ev s inv hPN horigN hm
      rw [applyOccs_cons_none _ _ _ _ hm, if_neg hnot]
      have hrec := ih (ps ++ [ev]) _ (by rw [← hassoc]; exact hN) inv'
      rw [hassoc]
      exact ⟨hrec.1, hrec.2⟩

theorem runSync_stable {H F : Type} [DecidableEq H]
    (occ : List (CoreOcc H F)) (s : StoreState H F)
    (hlen : s.recs.length ≤ 250)
    (hids : (idsOf s.recs).Nodup)
    (hmem : ∀ e ∈ occ, e.handle ∈ handlesOf s.recs)
    (hfields : ∀ e ∈ occ, ∀ r ∈ s.recs, r.handle = e.handle → r.fields = e.fields)
    (hcov : ∀ r ∈ s.recs, r.handle ∈ occ.map CoreOcc.handle) :
    runSyncModel occ s = ⟨s, true, 0, 0⟩ := by
  have hloop : ∀ (p : List (CoreOcc H F)),
      (∀ e ∈ p, e.handle ∈ handlesOf s.recs) →
      (∀ e ∈ p, ∀ r ∈ s.recs, r.handle = e.handle → r.fields = e.fields) →
      applyOccs s.recs p s = (s, true, 0) := by
    intro p
    induction p with
    | nil => intro _ _; rfl
    | cons ev rest ihp =>
      intro h1 h2
      have hev : ev.handle ∈ handlesOf s.recs := h1 ev (List.mem_cons_self ev rest)
      have hnn : mapGet s.recs ev.handle ≠ none := by
        rw [Ne, mapGet_eq_none_iff]
        exact fun hc => hc hev
      obtain ⟨id, hm⟩ := Option.ne_none_iff_exists'.mp hnn
      obtain ⟨q, hq, hqh, hqid⟩ := mapGet_eq_some s.recs ev.handle id hm
      have hhas : hasId s.recs id = true :=
        (hasId_iff _ _).mpr (hqid ▸ List.mem_map_of_mem _ hq)
      rw [applyOccs_cons_some _ _ _ _ _ hm, if_pos hhas]
      have hupd : updateRec s.recs id ev.fields = s.recs := by
        apply updateRec_eq_self
        intro r hr hrid
        have hrq : r = q := nodup_map_inj hids hr hq (by rw [hrid, hqid])
        rw [hrq]
        exact h2 ev (List.mem_cons_self ev rest) q hq hqh
      rw [hupd]
      have hs : (⟨s.recs, s.nextId⟩ : StoreState H F) = s := rfl
      rw [hs]
      exact ihp (fun e he => h1 e (List.mem_cons_of_mem _ he))
        (fun e he => h2 e (List.mem_cons_of_mem _ he))
  have hsnap : s.recs.take 250 = s.recs := List.take_of_length_le hlen
  have hdel : s.recs.filter
      (fun n => !(decide (n.handle ∈ occ.map CoreOcc.handle))) = [] := by
    rw [List.filter_eq_nil_iff]
    intro r hr
    simp only [Bool.not_eq_eq_eq_not, Bool.not_true, decide_eq_false_iff_not, not_not]
    exact hcov r hr
  simp only [runSyncModel]
  rw [hsnap, hloop occ hmem hfields, hdel]
  rfl

/-- C2 amended: provided the desired occurrences carry pairwise-distinct
handles and number at most 250, and the store is well-formed (distinct
handles, distinct ids below the fresh-id counter) with at most 250
records — so that the single `first:250` page lists everything — the
first run succeeds and a second run with the same desired set is
idempotent: it succeeds, changes nothing, and issues zero creates and
zero deletes.  (Without these bounds the one-page snapshot, or duplicate
desired handles, break the claim: see the counterexample.) -/
theorem run_twice_idempotent {H F : Type} [DecidableEq H]
    (occ : List (CoreOcc H F)) (s : StoreState H F)
    (hoccN : (occ.map CoreOcc.handle).Nodup)
    (hoccL : occ.length ≤ 250)
    (hsH : (handlesOf s.recs).Nodup)
    (hsI : (idsOf s.recs).Nodup)
    (hsL : s.recs.length ≤ 250)
    (hsN : ∀ r ∈ s.recs, r.id < s.nextId) :
    (runSyncModel occ s).ok = true ∧
    runSyncModel occ (runSyncModel occ s).state =
      ⟨(runSyncModel occ s).state, true, 0, 0⟩ := by
  have inv0 : SyncLoopInv s [] s := by
    refine ⟨fun i hi => hi, hsI, hsN, le_refl _, ?_, ?_, ?_, hsH, ?_, ?_, ?_⟩
    · intro r hr
      exact Or.inl (List.mem_map_of_mem _ hr)
    · intro e he
      simp at he
    · intro e he
      simp at he
    · intro q hq r hr hid
      rw [nodup_map_inj hsI hr hq hid]
    · intro q hq r hr hh
      rw [nodup_map_inj hsH hr hq hh]
    · intro r hr
      exact Or.inl (List.mem_map_of_mem _ hr)
  obtain ⟨hok1, inv1⟩ := applyOccs_run s hsN occ [] s (by simpa using hoccN) inv0
  rw [List.nil_append] at inv1
  have hdelSubOrig : ∀ i ∈ (s.recs.filter
      (fun n => !(decide (n.handle ∈ occ.map CoreOcc.handle)))).map RemoteRecord.id,
      i ∈ idsOf s.recs := by
    intro i hi
    obtain ⟨q, hq, hqid⟩ := List.mem_map.mp hi
    exact hqid ▸ List.mem_map_of_mem _ (List.mem_filter.mp hq).1
  have hdelN : ((s.recs.filter
      (fun n => !(decide (n.handle ∈ occ.map CoreOcc.handle)))).map RemoteRecord.id).Nodup := by
    have hsub : ((s.recs.filter
        (fun n => !(decide (n.handle ∈ occ.map CoreOcc.handle)))).map RemoteRecord.id).Sublist
        (idsOf s.recs) := (List.filter_sublist _).map _
    exact hsub.nodup hsI
  have hdelSub1 : ∀ i ∈ (s.recs.filter
      (fun n => !(decide (n.handle ∈ occ.map CoreOcc.handle)))).map RemoteRecord.id,
      i ∈ idsOf (applyOccs s.recs occ s).1.recs :=
    fun i hi => inv1.idsSub i (hdelSubOrig i hi)
  have hdels := applyDels_run _ (applyOccs s.recs occ s).1 hdelN hdelSub1
  have hrun1 : runSyncModel occ s =
      ⟨⟨(applyOccs s.recs occ s).1.recs.filter
          (fun r => !(decide (r.id ∈ (s.recs.filter
            (fun n => !(decide (n.handle ∈ occ.map CoreOcc.handle)))).map RemoteRecord.id))),
        (applyOccs s.recs occ s).1.nextId⟩,
       true, (applyOccs s.recs occ s).2.2,
       ((s.recs.filter
          (fun n => !(decide (n.handle ∈ occ.map CoreOcc.handle)))).map RemoteRecord.id).length⟩ := by
    simp only [runSyncModel]
    rw [List.take_of_length_le hsL, hok1, hdels]
    rfl
  set delIds := (s.recs.filter
    (fun n => !(decide (n.handle ∈ occ.map CoreOcc.handle)))).map RemoteRecord.id with hdelIds
  set s1 : StoreState H F := ⟨(applyOccs s.recs occ s).1.recs.filter
    (fun r => !(decide (r.id ∈ delIds))), (applyOccs s.recs occ s).1.nextId⟩ with hs1
  have hmem1 : ∀ e ∈ occ, e.handle ∈ handlesOf s1.recs := by
    intro e he
    obtain ⟨r, hr, hrh⟩ := List.mem_map.mp (inv1.procPresent e he)
    have hkeep : r.id ∉ delIds := by
      intro hin
      obtain ⟨q, hq, hqid⟩ := List.mem_map.mp hin
      obtain ⟨hqmem, hqflt⟩ := List.mem_filter.mp hq
      simp only [Bool.not_eq_eq_eq_not, Bool.not_true, decide_eq_false_iff_not] at hqflt
      have hrq : r.handle = q.handle := inv1.idHandle q hqmem r hr hqid.symm
      apply hqflt
      rw [← hrq, hrh]
      exact List.mem_map_of_mem _ he
    have hr1 : r ∈ s1.recs := by
      refine List.mem_filter.mpr ⟨hr, ?_⟩
      simp only [Bool.not_eq_eq_eq_not, Bool.not_true, decide_eq_false_iff_not]
      exact hkeep
    rw [← hrh]
    exact List.mem_map_of_mem _ hr1
  have hfields1 : ∀ e ∈ occ, ∀ r ∈ s1.recs, r.handle = e.handle →
      r.fields = e.fields := by
    intro e he r hr hrh
    exact inv1.procFields e he r (List.mem_filter.mp hr).1 hrh
  have hcov1 : ∀ r ∈ s1.recs, r.handle ∈ occ.map CoreOcc.handle := by
    intro r hr1
    obtain ⟨hr, hflt⟩ := List.mem_filter.mp hr1
    have hkeep : r.id ∉ delIds := by
      simp only [Bool.not_eq_eq_eq_not, Bool.not_true, decide_eq_false_iff_not] at hflt
      exact hflt
    rcases inv1.handleSub r hr with hOr | hOc
    · rcases inv1.newNotOrig r hr with hIdIn | hNot
      · obtain ⟨q, hq, hqid⟩ := List.mem_map.mp hIdIn
        have hqh : r.handle = q.handle := inv1.idHandle q hq r hr hqid.symm
        by_cases hqin : q.handle ∈ occ.map CoreOcc.handle
        · rw [hqh]
          exact hqin
        · have hqdel : q.id ∈ delIds := by
            refine List.mem_map_of_mem _ (List.mem_filter.mpr ⟨hq, ?_⟩)
            simp only [Bool.not_eq_eq_eq_not, Bool.not_true, decide_eq_false_iff_not]
            exact hqin
          rw [hqid] at hqdel
          exact absurd hqdel hkeep
      · exact absurd hOr hNot
    · exact hOc
  have hids1 : (idsOf s1.recs).Nodup := by
    have hsub : (idsOf s1.recs).Sublist (idsOf (applyOccs s.recs occ s).1.recs) :=
      (List.filter_sublist _).map _
    exact hsub.nodup inv1.idsNodup
  have hH1 : (handlesOf s1.recs).Nodup := by
    have hsub : (handlesOf s1.recs).Sublist (handlesOf (applyOccs s.recs occ s).1.recs) :=
      (List.filter_sublist _).map _
    exact hsub.nodup inv1.handlesNodup
  have hlen1 : s1.recs.length ≤ 250 := by
    have hsubset : ∀ a ∈ handlesOf s1.recs, a ∈ occ.map CoreOcc.handle := by
      intro a ha
      obtain ⟨r, hr, hra⟩ := List.mem_map.mp ha
      exact hra ▸ hcov1 r hr
    have hle : (handlesOf s1.recs).length ≤ (occ.map CoreOcc.handle).length :=
      nodup_subset_length_le hH1 hsubset
    have h1 : s1.recs.length = (handlesOf s1.recs).length := (List.length_map _ _).symm
    have h2 : (occ.map CoreOcc.handle).length = occ.length := List.length_map _ _
    omega
  have hstable := runSync_stable occ s1 hlen1 hids1 hmem1 hfields1 hcov1
  constructor
  · rw [hrun1]
  · rw [hrun1]
    exact hstable

/-- C2 counterexample: (1) with duplicate desired handles (two feed
events sharing a uid) the first run aborts on the duplicate create and
the second run overwrites fields, so the store state after the second run
differs from the state after the first; (2) with 251 existing records the
one-page snapshot misses the 251st handle and the second run still issues
a create for it — not zero creates. -/
theorem run_twice_counterexample :
    (¬ (∀ (occ : List (CoreOcc Nat Nat)) (s : StoreState Nat Nat),
        (runSyncModel occ (runSyncModel occ s).state).state = (runSyncModel occ s).state ∧
        (runSyncModel occ (runSyncModel occ s).state).creates = 0 ∧
        (runSyncModel occ (runSyncModel occ s).state).deletes = 0)) ∧
    (runSyncModel [(⟨250, 99⟩ : CoreOcc Nat Nat)]
        (runSyncModel [(⟨250, 99⟩ : CoreOcc Nat Nat)]
          ⟨(List.range 251).map (fun i => ⟨i, i, 0⟩), 300⟩).state).creates = 1 := by
  constructor
  · intro h
    exact absurd (h [⟨1, 10⟩, ⟨1, 20⟩] ⟨[], 0⟩).1 (by decide)
  · decide

/-- C2 amended witness: two desired occurrences against a two-record
store (one matching handle, one stale), all well-formedness bounds met:
the first run succeeds and the second run is a no-op with zero creates
and deletes. -/
theorem run_twice_idempotent_witness :
    ((([(⟨10, 5⟩ : CoreOcc Nat Nat), ⟨20, 7⟩].map CoreOcc.handle).Nodup ∧
      ([(⟨10, 5⟩ : CoreOcc Nat Nat), ⟨20, 7⟩] : List (CoreOcc Nat Nat)).length ≤ 250 ∧
      (handlesOf ([⟨1, 10, 0⟩, ⟨2, 30, 0⟩] : List (RemoteRecord Nat Nat))).Nodup ∧
      (idsOf ([⟨1, 10, 0⟩, ⟨2, 30, 0⟩] : List (RemoteRecord Nat Nat))).Nodup ∧
      ([⟨1, 10, 0⟩, ⟨2, 30, 0⟩] : List (RemoteRecord Nat Nat)).length ≤ 250 ∧
      (∀ r ∈ ([⟨1, 10, 0⟩, ⟨2, 30, 0⟩] : List (RemoteRecord Nat Nat)), r.id < 3)) ∧
    ((runSyncModel [⟨10, 5⟩, ⟨20, 7⟩] (⟨[⟨1, 10, 0⟩, ⟨2, 30, 0⟩], 3⟩ : StoreState Nat Nat)).ok = true ∧
      runSyncModel [⟨10, 5⟩, ⟨20, 7⟩]
          (runSyncModel [⟨10, 5⟩, ⟨20, 7⟩] (⟨[⟨1, 10, 0⟩, ⟨2, 30, 0⟩], 3⟩ : StoreState Nat Nat)).state =
        ⟨(runSyncModel [⟨10, 5⟩, ⟨20, 7⟩] (⟨[⟨1, 10, 0⟩, ⟨2, 30, 0⟩], 3⟩ : StoreState Nat Nat)).state,
          true, 0, 0⟩)) :=
  ⟨⟨by decide, by decide, by decide, by decide, by decide, by decide⟩,
    run_twice_idempotent [⟨10, 5⟩, ⟨20, 7⟩] ⟨[⟨1, 10, 0⟩, ⟨2, 30, 0⟩], 3⟩
      (by decide) (by decide) (by decide) (by decide) (by decide) (by decide)⟩
